import Mathlib

/-!
Verification of the arbitrary-precision integer engine of SECURE_MESSAGING.

The repository contains three overlapping module variants:
- src/BigInt.cpp            : decimal BigInt and hexadecimal BigHexInt,
                              HEX_SIZE = 64, MAX_HEX_RESULT_SIZE = 128,
                              KARATSUBA_THRESHOLD = 4, stub division;
- src/unnamed/part_000      : same classes and constants (declared in
                              src/Bigint.hpp), full long division, modPow;
- src/BigIntv1.cpp          : self-contained variant, HEX_SIZE = 128,
                              KARATSUBA_THRESHOLD = 8, sign-aware compare,
                              modPower, Miller-Rabin.

We embed the digit-array values shallowly: a value is a sign flag plus the
list of its significant digit characters, least significant first.  The
source keeps every array slot beyond the significant length equal to the
character '0' (all constructors fill the array with '0' and operations only
write inside the significant region), so the significant prefix determines
the whole array; loops of the source that scan a fixed number of array
slots are embedded by extending the prefix with the '0' fill (see `slots`).
Machine ints that are provably non-negative at their use sites (digit
values, carries, counts) are embedded as Nat.  Exceptions become the
`Err` sum; `Except` models an operation that can throw.

Namespaces: `BI` embeds the BigInt.cpp / part_000 hexadecimal class,
`BIDec` the BigInt.cpp decimal class, and `V1` the BigIntv1.cpp
hexadecimal class.
-/

/-- The constant HEX_DIGIT_STR = "0123456789abcdef" of the source. -/
def hexDigitStr : List Char := "0123456789abcdef".toList

/-- convertHexDigitToInt.  The source returns -1 on a character outside the
hex alphabet; the class invariant (validated input) rules that case out, and
we return 0 there so that the result is a Nat. -/
def hexNat (c : Char) : Nat :=
  if '0' ≤ c ∧ c ≤ '9' then c.toNat - '0'.toNat
  else if 'a' ≤ c ∧ c ≤ 'f' then c.toNat - 'a'.toNat + 10
  else if 'A' ≤ c ∧ c ≤ 'F' then c.toNat - 'A'.toNat + 10
  else 0

/-- convertIntToHexChar / indexing into HEX_DIGIT_STR.  Out-of-range
arguments (on which the source would throw) yield a placeholder that never
arises at the embedded call sites, where the argument is reduced mod 16 or
otherwise bounded. -/
def hexCharOf (n : Nat) : Char := hexDigitStr.getD n '?'

/-- Character class accepted by the hexadecimal input validators. -/
def isHexDigit (c : Char) : Bool :=
  ('0' ≤ c && c ≤ '9') || ('a' ≤ c && c ≤ 'f') || ('A' ≤ c && c ≤ 'F')

/-- Characters that the arithmetic itself can emit (lower-case alphabet). -/
def isLowHex (c : Char) : Bool := hexDigitStr.contains c

/-- Numeric value of a least-significant-first hex digit character list. -/
def hval : List Char → Nat
  | [] => 0
  | c :: t => hexNat c + 16 * hval t

/-- The trailing-zero trimming loop of the source: decrease the significant
length while it exceeds 1 and the top digit is '0'.  Operating on the
significant prefix this drops high-order '0' characters but keeps at least
one digit. -/
def trimHigh (l : List Char) : List Char :=
  if (l.reverse.dropWhile (fun c => c == '0')).isEmpty then ['0']
  else (l.reverse.dropWhile (fun c => c == '0')).reverse

/-- First-difference comparison of two digit lists of equal length, most
significant digit first, comparing hex digit values; this is the descending
digit loop shared by compare and by the magnitude test of subtraction. -/
def cmpDigs : List Char → List Char → Int
  | [], _ => 0
  | _ :: _, [] => 0
  | a :: as2, b :: bs2 =>
      if hexNat a ≠ hexNat b then (if hexNat a > hexNat b then 1 else -1)
      else cmpDigs as2 bs2

/-- A fixed digit array of the source seen as exactly n slots: the
significant digits (cut at n) followed by the '0' fill of the unset
slots. -/
def slots (n : Nat) (l : List Char) : List Char :=
  l.take n ++ List.replicate (n - l.length) '0'

/-- Carry-propagating addition across parallel digit slots (the per-index
loop of hexadecimal addition): each output digit is the slot sum mod 16
and the carry is the slot sum div 16; returns the digit list and the final
carry. -/
def addSlots : List Char → List Char → Nat → List Char × Nat
  | [], _, c => ([], c)
  | x :: xs, ys, c =>
      let s := hexNat x + hexNat (ys.headD '0') + c
      let r := addSlots xs ys.tail (s / 16)
      (hexCharOf (s % 16) :: r.1, r.2)

/-- Borrow-propagating subtraction across digit slots (the per-index loop
of hexadecimal subtraction): diff = minuend digit - subtrahend digit -
borrow, adding 16 and setting the borrow when negative.  Digits of the
second list beyond its length read as value 0, as in the source. -/
def subSlots : List Char → List Char → Nat → List Char
  | [], _, _ => []
  | x :: xs, ys, brw =>
      let dl := hexNat x
      let ds := hexNat (ys.headD '0') + brw
      if dl < ds then hexCharOf (dl + 16 - ds) :: subSlots xs ys.tail 1
      else hexCharOf (dl - ds) :: subSlots xs ys.tail 0

/-- Tail phase of the inner multiplication loop: propagate a carry into the
accumulator digits until it is zero (the loop keeps running on carry alone
after the second operand is exhausted).  The empty-accumulator case cannot
arise at the embedded call sites because the accumulator always has room
for the full product. -/
def carryProp : List Char → Nat → List Char
  | [], c => if c == 0 then [] else [hexCharOf (c % 16)]
  | s :: ss, c =>
      if c == 0 then s :: ss
      else
        let p := hexNat s + c
        hexCharOf (p % 16) :: carryProp ss (p / 16)

/-- Inner loop of naive multiplication for one digit of the first operand:
into the accumulator suffix starting at the line offset, add ad times the
digits of b with carry propagation. -/
def mulAdd (suffix : List Char) (ad : Nat) (bs : List Char) (carry : Nat) :
    List Char :=
  match bs with
  | [] => carryProp suffix carry
  | b :: bs2 =>
      match suffix with
      | s :: ss =>
          let p := hexNat s + ad * hexNat b + carry
          hexCharOf (p % 16) :: mulAdd ss ad bs2 (p / 16)
      | [] =>
          let p := ad * hexNat b + carry
          hexCharOf (p % 16) :: mulAdd [] ad bs2 (p / 16)

/-- Outer loop of naive multiplication: one `mulAdd` line per digit of the
first operand, at increasing offsets into the accumulator. -/
def naiveLines (acc : List Char) (i : Nat) (as2 : List Char) (b : List Char) :
    List Char :=
  match as2 with
  | [] => acc
  | a0 :: arest =>
      naiveLines (acc.take i ++ mulAdd (acc.drop i) (hexNat a0) b 0) (i + 1) arest b

/-- Lexicographic less-than on character lists: the std::string comparison
used to order the memoization key. -/
def strLt : List Char → List Char → Bool
  | [], [] => false
  | [], _ :: _ => true
  | _ :: _, [] => false
  | a :: as2, b :: bs2 => if a < b then true else if b < a then false else strLt as2 bs2

/-- The exception classes of the source (exceptions.cpp / the local class
definitions), plus std::invalid_argument thrown by modPow, plus a marker
for exhaustion of the structural recursion fuel of the embedding (never
reached at sufficient fuel). -/
inductive Err where
  | divisionByZero
  | invalidInput
  | overflow
  | invalidArgument
  | fuelOut
  deriving Repr, DecidableEq

/-- A hexadecimal big integer: sign flag and the significant digit
characters, least significant first (class BigHexInt). -/
structure HexInt where
  neg : Bool
  digits : List Char
  deriving Repr, DecidableEq

/-- The process-wide Karatsuba memoization map: association list from the
canonical operand string pair to the product string; insertion prepends,
lookup takes the first match, so a later insertion for the same key would
shadow an earlier one exactly as assignment into std::map would overwrite
it. -/
def Cache : Type := List ((List Char × List Char) × List Char)

/-- Lookup in the memoization map (karatsubaMemo.find). -/
def cacheFind (c : Cache) (k : List Char × List Char) : Option (List Char) :=
  match c with
  | [] => none
  | (k2, v) :: rest => if k2 == k then some v else cacheFind rest k

/-- BigHexInt::getLower: the lower n digits, non-negative; identical in
BigInt.cpp, part_000 and BigIntv1.cpp. -/
def getLower (v : HexInt) (n : Nat) : HexInt :=
  let actual := min v.digits.length n
  { neg := false, digits := if actual == 0 then ['0'] else v.digits.take actual }

/-- BigHexInt::getHigher: the digits above position n, non-negative;
identical in all three variants. -/
def getHigher (v : HexInt) (n : Nat) : HexInt :=
  if v.digits.length ≤ n then { neg := false, digits := ['0'] }
  else { neg := false, digits := v.digits.drop n }

namespace BI

/-- Constants of src/Bigint.hpp and src/BigInt.cpp. -/
def HEX_SIZE : Nat := 64

/-- MAX_HEX_RESULT_SIZE. -/
def RESULT_SIZE : Nat := 128

/-- KARATSUBA_THRESHOLD of BigInt.cpp / Bigint.hpp. -/
def THRESHOLD : Nat := 4

/-- BigHexInt::isZero of BigInt.cpp / part_000: every digit below the
significant length is '0'. -/
def isZero (v : HexInt) : Bool := v.digits.all (fun c => c == '0')

/-- BigHexInt::isOne of part_000: first digit '1', all others '0' (the sign
is not inspected). -/
def isOne (v : HexInt) : Bool :=
  match v.digits with
  | [] => false
  | c :: rest => c == '1' && rest.all (fun c2 => c2 == '0')

/-- BigHexInt::isValidInput: optional minus sign, then at least one
character of the hex alphabet. -/
def isValidInput (s : List Char) : Bool :=
  match s with
  | [] => false
  | '-' :: rest => !rest.isEmpty && rest.all isHexDigit
  | _ => s.all isHexDigit

/-- BigHexInt::createFromString of BigInt.cpp / part_000: validate, record
the sign, refuse more than HEX_SIZE digits, store the digits reversed into
the '0'-filled array, then trim the significant length down from HEX_SIZE
(trimming the '0' fill and then any high '0' digits of the input, which is
what `trimHigh` applied to the reversed digits yields). -/
def createFromString (s : List Char) : Except Err HexInt :=
  if !isValidInput s then .error .invalidInput
  else
    let neg := s.headD ' ' == '-'
    let rest := if neg then s.tail else s
    if rest.length > HEX_SIZE then .error .overflow
    else .ok { neg := neg, digits := trimHigh rest.reverse }

/-- BigHexInt::toString of BigInt.cpp / part_000: a minus sign whenever the
sign flag is set (also on a zero value), then the digits from the most
significant one that is not '0' (keeping at least one digit) down to
position 0. -/
def toStr (v : HexInt) : List Char :=
  (if v.neg then ['-'] else []) ++ (trimHigh v.digits).reverse

/-- BigHexInt::compare of BigInt.cpp / part_000: differing signs decide;
otherwise scan all HEX_SIZE array slots from the top, first differing digit
value decides, inverted when the operands are negative. -/
def compare (a b : HexInt) : Int :=
  if a.neg && !b.neg then -1
  else if !a.neg && b.neg then 1
  else
    let c := cmpDigs (slots HEX_SIZE a.digits).reverse (slots HEX_SIZE b.digits).reverse
    if a.neg then -c else c

/-- Same-sign branch of BigHexInt::operator+ of BigInt.cpp / part_000: add
all HEX_SIZE slots with carry, append a final carry digit at slot HEX_SIZE
(always below MAX_HEX_RESULT_SIZE), keep the first operand's sign, trim. -/
def addCore (a b : HexInt) : HexInt :=
  let r := addSlots (slots HEX_SIZE a.digits) (slots HEX_SIZE b.digits) 0
  let withCarry := if r.2 > 0 then r.1 ++ [hexCharOf r.2] else r.1
  { neg := a.neg, digits := trimHigh withCarry }

/-- Same-sign branch of BigHexInt::operator- of BigInt.cpp / part_000:
scan the HEX_SIZE slots from the top to find which magnitude is larger,
subtract the smaller from the larger slot-wise with borrow, set the sign
from the branch taken, trim. -/
def subCore (a b : HexInt) : HexInt :=
  let cmp := cmpDigs (slots HEX_SIZE a.digits).reverse (slots HEX_SIZE b.digits).reverse
  if cmp ≥ 0 then
    { neg := a.neg,
      digits := trimHigh (subSlots (slots HEX_SIZE a.digits) (slots HEX_SIZE b.digits) 0) }
  else
    { neg := !a.neg,
      digits := trimHigh (subSlots (slots HEX_SIZE b.digits) (slots HEX_SIZE a.digits) 0) }

/-- BigHexInt::operator+ of BigInt.cpp / part_000: same signs add the
magnitudes; differing signs delegate to subtraction of the absolute value
of the negative operand, which is then a same-sign subtraction. -/
def add (a b : HexInt) : HexInt :=
  if a.neg == b.neg then addCore a b
  else if a.neg then subCore b { a with neg := false }
  else subCore a { b with neg := false }

/-- BigHexInt::operator- of BigInt.cpp / part_000: differing signs delegate
to addition with the second operand's sign flipped (then a same-sign
addition); same signs run the magnitude subtraction. -/
def sub (a b : HexInt) : HexInt :=
  if a.neg != b.neg then addCore a { b with neg := !b.neg }
  else subCore a b

/-- BigHexInt::shiftLeft / shiftLeftInPlace of BigInt.cpp / part_000:
refuse when the new length would exceed HEX_SIZE, else insert n '0' digits
at the low end. -/
def shiftLeft (v : HexInt) (n : Nat) : Except Err HexInt :=
  if v.digits.length + n > HEX_SIZE then .error .overflow
  else .ok { v with digits := List.replicate n '0' ++ v.digits }

/-- BigHexInt::pad of BigInt.cpp / part_000: extend with high '0' digits up
to the target length (no capacity check in this variant); sign kept. -/
def pad (v : HexInt) (targetLen : Nat) : HexInt :=
  if v.digits.length < targetLen then
    { v with digits := v.digits ++ List.replicate (targetLen - v.digits.length) '0' }
  else v

/-- BigHexInt::multiplyNaive of BigInt.cpp / part_000: refuse when the two
significant lengths add to MAX_HEX_RESULT_SIZE or more, else run the
quadratic convolution into a '0'-filled accumulator of that combined
length, trim, sign is the XOR of the operand signs. -/
def multiplyNaive (a b : HexInt) : Except Err HexInt :=
  if a.digits.length + b.digits.length ≥ RESULT_SIZE then .error .overflow
  else
    let acc := naiveLines (List.replicate (a.digits.length + b.digits.length) '0') 0
      a.digits b.digits
    .ok { neg := a.neg != b.neg, digits := trimHigh acc }

/-- BigHexInt::karatsuba of BigInt.cpp / part_000, with the global
memoization map passed explicitly and a structural fuel for the recursion
depth (a fuel above the larger significant length is enough, see the
lemmas).  Steps of the source in order: build the canonically ordered
string key and return a reparsed cache hit; zero base case; naive base
case at the threshold; else pad to the larger length, split at the
midpoint, three recursive products, combine with shifts and additions,
trim, memoize. -/
def karatF (fuel : Nat) (cache : Cache) (x y : HexInt) :
    Except Err (HexInt × Cache) :=
  match fuel with
  | 0 => .error .fuelOut
  | fuel + 1 =>
    let sx := toStr x
    let sy := toStr y
    let key := if strLt sy sx then (sy, sx) else (sx, sy)
    match cacheFind cache key with
    | some v => do
        let r ← createFromString v
        .ok (r, cache)
    | none =>
      if (x.digits.length == 1 && x.digits.headD ' ' == '0')
          || (y.digits.length == 1 && y.digits.headD ' ' == '0') then
        let zero : HexInt := { neg := false, digits := ['0'] }
        .ok (zero, (key, toStr zero) :: cache)
      else if x.digits.length ≤ THRESHOLD || y.digits.length ≤ THRESHOLD then do
        let r ← multiplyNaive x y
        .ok (r, (key, toStr r) :: cache)
      else do
        let n := max x.digits.length y.digits.length
        let xp := pad x n
        let yp := pad y n
        let m := n / 2
        let low1 := getLower xp m
        let high1 := getHigher xp m
        let low2 := getLower yp m
        let high2 := getHigher yp m
        let z0c ← karatF fuel cache low1 low2
        let z2c ← karatF fuel z0c.2 high1 high2
        let sum1 := add low1 high1
        let sum2 := add low2 high2
        let z1c ← karatF fuel z2c.2 sum1 sum2
        let z1 := sub (sub z1c.1 z2c.1) z0c.1
        let part1 ← shiftLeft z2c.1 (2 * m)
        let part2 ← shiftLeft z1 m
        let result := add (add part1 part2) z0c.1
        let result2 := { result with digits := trimHigh result.digits }
        .ok (result2, (key, toStr result2) :: z1c.2)

/-- BigHexInt::operator* of BigInt.cpp: Karatsuba when the combined
significant length exceeds 8, else naive; afterwards the sign is set to
the XOR of the operand signs. -/
def mulOp (cache : Cache) (a b : HexInt) : Except Err (HexInt × Cache) :=
  if a.digits.length + b.digits.length > 8 then do
    let rc ← karatF (max a.digits.length b.digits.length + 1) cache a b
    .ok ({ rc.1 with neg := a.neg != b.neg }, rc.2)
  else do
    let r ← multiplyNaive a b
    .ok ({ r with neg := a.neg != b.neg }, cache)

/-- BigHexInt::operator* of part_000: always Karatsuba, then the XOR
sign. -/
def mulOpV0 (cache : Cache) (a b : HexInt) : Except Err (HexInt × Cache) := do
  let rc ← karatF (max a.digits.length b.digits.length + 1) cache a b
  .ok ({ rc.1 with neg := a.neg != b.neg }, rc.2)

/-- The repeated-subtraction loop of the long division in part_000: while
the current part is at least the divisor magnitude, subtract it and count.
The fuel (instantiated with the numeric value of the current part plus
one) dominates the number of subtractions of a nonzero divisor. -/
def divStep (fuel : Nat) (cd dv : HexInt) (count : Nat) : HexInt × Nat :=
  match fuel with
  | 0 => (cd, count)
  | fuel + 1 =>
      if compare cd dv ≥ 0 then divStep fuel (sub cd dv) dv (count + 1)
      else (cd, count)

/-- Digit loop of BigHexInt::divide in part_000: bring in the next dividend
digit (shifting the running part up one slot, or starting fresh when it is
zero), subtract the divisor magnitude as often as possible, convert the
count to a quotient character (the conversion throws at 16 or more, which
the loop invariant rules out), and append it unless it is a leading
zero. -/
def divLoop (dv : HexInt) (ds : List Char) (cd : HexInt) (qd : List Char) :
    Except Err (HexInt × List Char) :=
  match ds with
  | [] => .ok (cd, qd)
  | d :: rest =>
      let cd2 := if !(isZero cd) then { cd with digits := d :: cd.digits }
        else { cd with digits := [d] }
      let r := divStep (hval cd2.digits + 1) cd2 dv 0
      if r.2 ≥ 16 then .error .invalidInput
      else
        let qd2 := if r.2 > 0 || !qd.isEmpty then qd ++ [hexCharOf r.2] else qd
        divLoop dv rest r.1 qd2

/-- BigHexInt::divide of part_000 (the full long division): division by a
zero magnitude throws; a zero dividend yields zero quotient and remainder;
equal magnitudes yield quotient one with the XOR sign and zero remainder;
a smaller dividend magnitude yields a non-negative zero quotient and the
dividend as remainder; otherwise the schoolbook digit loop runs on the
magnitudes, the quotient (built most significant digit first) is reversed
and signed with the XOR unless empty, and the remainder takes the
dividend's sign unless zero. -/
def divide (a b : HexInt) : Except Err (HexInt × HexInt) :=
  if isZero b then .error .divisionByZero
  else if isZero a then
    .ok ({ neg := false, digits := ['0'] }, { neg := false, digits := ['0'] })
  else
    let dividend := { a with neg := false }
    let divisorAbs := { b with neg := false }
    let cmp := compare dividend divisorAbs
    if cmp == 0 then
      .ok ({ neg := a.neg != b.neg, digits := ['1'] }, { neg := false, digits := ['0'] })
    else if cmp < 0 then
      .ok ({ neg := false, digits := ['0'] }, a)
    else do
      let r ← divLoop divisorAbs dividend.digits.reverse { neg := false, digits := ['0'] } []
      let quotient :=
        if r.2.isEmpty then { neg := false, digits := ['0'] }
        else { neg := a.neg != b.neg, digits := r.2.reverse }
      let remainder := { neg := a.neg && !(isZero r.1), digits := r.1.digits }
      .ok (quotient, remainder)

/-- part_000 BigHexInt::operator/: the quotient of the full division. -/
def divOp (a b : HexInt) : Except Err HexInt := (divide a b).map (fun p => p.1)

/-- part_000 BigHexInt::operator%: the remainder of the full division. -/
def modOp (a b : HexInt) : Except Err HexInt := (divide a b).map (fun p => p.2)

/-- BigHexInt::divide of BigInt.cpp, the stub: zero divisor throws; equal
values yield quotient one and zero remainder; a dividend below the divisor
(in the signed comparison, restricted as written to the all-positive and
all-negative cases) yields quotient zero and the dividend as remainder;
every other input falls through the missing long division and returns the
zero-digit quotient with the XOR sign, leaving the caller's remainder
object untouched. -/
def divideStub (a b : HexInt) (rem0 : HexInt) : Except Err (HexInt × HexInt) :=
  if isZero b then .error .divisionByZero
  else
    let q0 : HexInt := { neg := a.neg != b.neg, digits := ['0'] }
    let cmp := compare a b
    if cmp == 0 then
      .ok ({ q0 with digits := ['1'] }, { neg := false, digits := ['0'] })
    else if (cmp < 0 && !a.neg && !b.neg) || (cmp > 0 && a.neg && b.neg) then
      .ok (q0, a)
    else .ok (q0, rem0)

/-- BigInt.cpp BigHexInt::operator/: stub division, remainder discarded. -/
def divOpStub (a b : HexInt) : Except Err HexInt :=
  (divideStub a b { neg := false, digits := ['0'] }).map (fun p => p.1)

/-- BigInt.cpp BigHexInt::operator%: stub division into a default
constructed remainder (one '0' digit, non-negative), which the fallthrough
path never writes. -/
def modOpStub (a b : HexInt) : Except Err HexInt :=
  (divideStub a b { neg := false, digits := ['0'] }).map (fun p => p.2)

/-- BigHexInt::isOdd of part_000: parity of the least significant digit
value (false on an empty length, which the invariant rules out). -/
def isOdd (v : HexInt) : Bool :=
  match v.digits with
  | [] => false
  | c :: _ => hexNat c % 2 == 1

/-- Digit loop of BigHexInt::divideByTwo of part_000, most significant
first: digit value plus 16 times the carry, halved; the remainder becomes
the next carry; leading zero results are skipped.  The accumulator is the
result built most significant digit first. -/
def div2Loop (ds : List Char) (carry : Nat) (acc : List Char) : List Char :=
  match ds with
  | [] => acc
  | c :: rest =>
      let dv := hexNat c + carry * 16
      let acc2 := if dv / 2 > 0 || !acc.isEmpty then acc ++ [hexCharOf (dv / 2)] else acc
      div2Loop rest (dv % 2) acc2

/-- BigHexInt::divideByTwo of part_000. -/
def divideByTwo (v : HexInt) : HexInt :=
  if isZero v then { neg := false, digits := ['0'] }
  else
    let acc := div2Loop v.digits.reverse 0 []
    if acc.isEmpty then { neg := false, digits := ['0'] }
    else { neg := v.neg, digits := acc.reverse }

/-- The BigHexInt string constructor applied to a fixed valid literal of
the source text; such a literal never throws, and the error arm is
unreachable. -/
def ofLit (s : List Char) : HexInt :=
  match createFromString s with
  | .ok v => v
  | .error _ => { neg := false, digits := ['0'] }

/-- The square-and-multiply loop of BigHexInt::modPow of part_000, with
the memoization map threaded through the multiplications (part_000
operator* always calls Karatsuba) and fuel bounded by the exponent value
(halving strictly decreases it). -/
def modPowLoop (fuel : Nat) (cache : Cache) (result base exp md : HexInt) :
    Except Err (HexInt × Cache) :=
  match fuel with
  | 0 => .error .fuelOut
  | fuel + 1 =>
      if isZero exp then .ok (result, cache)
      else do
        let rc ←
          if isOdd exp then do
            let pc ← mulOpV0 cache result base
            let m ← modOp pc.1 md
            Except.ok (m, pc.2)
          else Except.ok (result, cache)
        let bc ← mulOpV0 rc.2 base base
        let base2 ← modOp bc.1 md
        modPowLoop fuel bc.2 rc.1 base2 (divideByTwo exp) md

/-- BigHexInt::modPow of part_000.  Guard ladder in source order: a zero
modulus throws std::invalid_argument; a modulus equal to one returns zero;
a zero exponent returns one; a zero base returns zero; a negative exponent
throws std::invalid_argument.  Then the base is reduced modulo the modulus
(a negative base is negated, reduced and subtracted from the modulus), a
zero reduced base returns zero, and the binary exponentiation loop runs. -/
def modPow (cache : Cache) (a exp md : HexInt) : Except Err (HexInt × Cache) :=
  if isZero md then .error .invalidArgument
  else if isOne md then .ok (ofLit ['0'], cache)
  else if isZero exp then .ok (ofLit ['1'], cache)
  else if isZero a then .ok (ofLit ['0'], cache)
  else if exp.neg then .error .invalidArgument
  else do
    let base2 ←
      if a.neg then do
        let t ← modOp { a with neg := false } md
        Except.ok (sub md t)
      else modOp a md
    if isZero base2 then .ok (ofLit ['0'], cache)
    else modPowLoop (hval exp.digits + 1) cache (ofLit ['1']) base2 exp md

end BI

/-- A decimal big integer of class BigInt in BigInt.cpp: sign flag and the
significant digit values (each stored as a small integer in a char slot),
least significant first. -/
structure DecInt where
  neg : Bool
  digits : List Nat
  deriving Repr, DecidableEq

/-- First-difference comparison on decimal digit value lists, most
significant first. -/
def cmpDigsN : List Nat → List Nat → Int
  | [], _ => 0
  | _ :: _, [] => 0
  | a :: as2, b :: bs2 =>
      if a ≠ b then (if a > b then 1 else -1) else cmpDigsN as2 bs2

/-- Numeric value of a least-significant-first decimal digit list. -/
def dval : List Nat → Nat
  | [] => 0
  | d :: t => d + 10 * dval t

/-- Decimal digit slots: the significant digits (cut at n) plus the zero
fill of the unset array slots. -/
def slotsD (n : Nat) (l : List Nat) : List Nat :=
  l.take n ++ List.replicate (n - l.length) 0

/-- Carry loop of decimal addition over n parallel slots. -/
def addSlotsD : List Nat → List Nat → Nat → List Nat × Nat
  | [], _, c => ([], c)
  | x :: xs, ys, c =>
      let s := x + ys.headD 0 + c
      let r := addSlotsD xs ys.tail (s / 10)
      (s % 10 :: r.1, r.2)

/-- Borrow loop of decimal subtraction: larger magnitude first; digits of
the second list beyond its length read as 0. -/
def subSlotsD : List Nat → List Nat → Nat → List Nat
  | [], _, _ => []
  | x :: xs, ys, brw =>
      let yd := ys.headD 0 + brw
      if x < yd then (x + 10 - yd) :: subSlotsD xs ys.tail 1
      else (x - yd) :: subSlotsD xs ys.tail 0

/-- Decimal trailing-zero trim, keeping at least one digit. -/
def trimHighD (l : List Nat) : List Nat :=
  let r := l.reverse.dropWhile (fun d => d == 0)
  if r.isEmpty then [0] else r.reverse

namespace BIDec

/-- MAX_DIGITS of BigInt.cpp / Bigint.hpp. -/
def MAX_DIGITS : Nat := 618

/-- BigInt::isValidInput of BigInt.cpp: nonempty; a lone minus sign is
invalid; every character (after an optional leading minus) is a decimal
digit. -/
def isValidInput (s : List Char) : Bool :=
  match s with
  | [] => false
  | '-' :: rest => !rest.isEmpty && rest.all (fun c => '0' ≤ c && c ≤ '9')
  | c :: rest => ('0' ≤ c && c ≤ '9') && rest.all (fun c2 => '0' ≤ c2 && c2 ≤ '9')

/-- BigInt::createFromString of BigInt.cpp: validate, record the sign,
refuse more than MAX_DIGITS digits, store the digit values reversed.
Leading zeros of the literal are kept as high zero digits and counted in
the length (this variant does not strip them). -/
def createFromString (s : List Char) : Except Err DecInt :=
  if !isValidInput s then .error .invalidInput
  else
    let neg := s.headD ' ' == '-'
    let rest := if neg then s.tail else s
    if rest.length > MAX_DIGITS then .error .overflow
    else .ok { neg := neg, digits := rest.reverse.map (fun c => c.toNat - '0'.toNat) }

/-- The text written by BigInt::print of BigInt.cpp: a minus sign when the
sign flag is set, then every digit from position length-1 down to 0 (no
skipping of high zeros). -/
def toText (v : DecInt) : List Char :=
  (if v.neg then ['-'] else []) ++ v.digits.reverse.map (fun d => Char.ofNat (d + '0'.toNat))

/-- BigInt::compare of BigInt.cpp: longer length wins, else the first
differing digit from the top decides.  The sign flags are not inspected at
all in this variant. -/
def compare (a b : DecInt) : Int :=
  if a.digits.length ≠ b.digits.length then
    (if a.digits.length > b.digits.length then 1 else -1)
  else cmpDigsN a.digits.reverse b.digits.reverse

/-- Same-sign branch of BigInt::operator+ of BigInt.cpp: the result length
starts as the larger operand length and the Overflow check fires up front
when that length is already MAX_DIGITS - 1 or more; then the carry loop
runs over the slots, extending by the final carry digit at most once. -/
def addCore (a b : DecInt) : Except Err DecInt :=
  let n := max a.digits.length b.digits.length
  if n ≥ MAX_DIGITS - 1 then .error .overflow
  else
    let r := addSlotsD (slotsD n a.digits) (slotsD n b.digits) 0
    .ok { neg := a.neg, digits := if r.2 > 0 then r.1 ++ [r.2] else r.1 }

/-- Same-sign branch of BigInt::operator- of BigInt.cpp: when the signless
compare says the first operand is smaller the roles are swapped and the
result sign flipped (the source recurses once; here the swapped call is
resolved, its compare being non-negative); the borrow loop runs over the
larger operand's length and the result is trimmed. -/
def subSame (a b : DecInt) : DecInt :=
  if compare a b < 0 then
    { neg := !a.neg, digits := trimHighD (subSlotsD b.digits a.digits 0) }
  else
    { neg := a.neg, digits := trimHighD (subSlotsD a.digits b.digits 0) }

/-- BigInt::operator+ of BigInt.cpp: same signs add magnitudes (with the
premature capacity check); differing signs delegate to the same-sign
subtraction against the absolute value of the negative operand. -/
def add (a b : DecInt) : Except Err DecInt :=
  if a.neg == b.neg then addCore a b
  else if a.neg then .ok (subSame b { a with neg := false })
  else .ok (subSame a { b with neg := false })

/-- BigInt::operator- of BigInt.cpp: differing signs delegate to addition
with the second operand's sign flipped (a same-sign addition, which can
throw); same signs run the magnitude subtraction, which cannot. -/
def sub (a b : DecInt) : Except Err DecInt :=
  if a.neg != b.neg then add a { b with neg := !b.neg }
  else .ok (subSame a b)

end BIDec

namespace V1

/-- HEX_SIZE of BigIntv1.cpp (both the array size and the capacity). -/
def HEX_SIZE : Nat := 128

/-- KARATSUBA_THRESHOLD of BigIntv1.cpp. -/
def THRESHOLD : Nat := 8

/-- BigHexInt::isZero of BigIntv1.cpp: length one and the digit '0'. -/
def isZero (v : HexInt) : Bool := v.digits == ['0']

/-- BigHexInt::isOne of BigIntv1.cpp: length one, digit '1', and
non-negative. -/
def isOne (v : HexInt) : Bool := v.digits == ['1'] && !v.neg

/-- BigHexInt::isEven of BigIntv1.cpp: the least significant digit value is
even. -/
def isEven (v : HexInt) : Bool := hexNat (v.digits.headD '0') % 2 == 0

/-- BigHexInt::isValidInput of BigIntv1.cpp: nonempty, at most HEX_SIZE + 1
characters, a lone minus sign is invalid, all characters after an optional
minus are hex digits. -/
def isValidInput (s : List Char) : Bool :=
  if s.length > HEX_SIZE + 1 then false
  else
    match s with
    | [] => false
    | '-' :: rest => !rest.isEmpty && rest.all isHexDigit
    | _ => s.all isHexDigit

/-- The leading-zero stripping loop of BigIntv1.cpp parsing: advance past
'0' characters while at least one character remains after the cursor. -/
def stripZeros : List Char → List Char
  | [] => []
  | [c] => [c]
  | c :: rest => if c == '0' then stripZeros rest else c :: rest

/-- BigHexInt::createFromString of BigIntv1.cpp: validate, record the
sign, strip leading zeros, refuse more than HEX_SIZE remaining digits,
normalize the single remaining '0' to the non-negative zero, else store
the stripped digits reversed (their raw characters, case preserved). -/
def createFromString (s : List Char) : Except Err HexInt :=
  if !isValidInput s then .error .invalidInput
  else
    let neg := s.headD ' ' == '-'
    let rest := if neg then s.tail else s
    let st := stripZeros rest
    if st.length > HEX_SIZE then .error .overflow
    else if st == ['0'] then .ok { neg := false, digits := ['0'] }
    else .ok { neg := neg, digits := st.reverse }

/-- BigHexInt::toString of BigIntv1.cpp: a minus sign only when negative
and nonzero, then the digits from the most significant non-'0' one
(keeping at least one) down to position 0. -/
def toStr (v : HexInt) : List Char :=
  (if v.neg && !(isZero v) then ['-'] else []) ++ (trimHigh v.digits).reverse

/-- BigHexInt::compare of BigIntv1.cpp: differing signs decide; equal signs
compare the significant lengths, then the digits from the most significant
down, and the outcome is multiplied by -1 when both operands are
negative. -/
def compare (a b : HexInt) : Int :=
  if a.neg && !b.neg then -1
  else if !a.neg && b.neg then 1
  else
    let m : Int := if a.neg then -1 else 1
    if a.digits.length ≠ b.digits.length then
      (if a.digits.length > b.digits.length then 1 else -1) * m
    else cmpDigs a.digits.reverse b.digits.reverse * m

/-- Same-sign branch of BigHexInt::operator+ of BigIntv1.cpp: the carry
loop runs to the larger length (throwing only when it would write at slot
HEX_SIZE, i.e. when a final carry digit would not fit), the result is
trimmed and keeps the first operand's sign. -/
def addCore (a b : HexInt) : Except Err HexInt :=
  let n := max a.digits.length b.digits.length
  if n > HEX_SIZE then .error .overflow
  else
    let r := addSlots (slots n a.digits) (slots n b.digits) 0
    if r.2 > 0 then
      if n + 1 > HEX_SIZE then .error .overflow
      else .ok { neg := a.neg, digits := trimHigh (r.1 ++ [hexCharOf r.2]) }
    else .ok { neg := a.neg, digits := trimHigh r.1 }

/-- Same-sign branch of BigHexInt::operator- of BigIntv1.cpp: an inline
magnitude comparison (length, then digits from the top) picks the larger
operand; the borrow loop runs over its length; the result is trimmed, its
sign flipping when the first operand had the smaller magnitude, and a zero
result is normalized to non-negative. -/
def subCore (a b : HexInt) : HexInt :=
  let cmpAbs : Int :=
    if a.digits.length ≠ b.digits.length then
      (if a.digits.length > b.digits.length then 1 else -1)
    else cmpDigs a.digits.reverse b.digits.reverse
  let neg0 := if cmpAbs ≥ 0 then a.neg else !a.neg
  let dl :=
    if cmpAbs ≥ 0 then trimHigh (subSlots a.digits b.digits 0)
    else trimHigh (subSlots b.digits a.digits 0)
  { neg := if dl == ['0'] then false else neg0, digits := dl }

/-- BigHexInt::operator+ of BigIntv1.cpp: differing signs subtract the
absolute values (a same-sign subtraction) and overwrite the sign with that
of the operand of larger magnitude; equal signs add the magnitudes. -/
def add (a b : HexInt) : Except Err HexInt :=
  if a.neg != b.neg then
    let absA := { a with neg := false }
    let absB := { b with neg := false }
    if compare absA absB ≥ 0 then .ok { subCore absA absB with neg := a.neg }
    else .ok { subCore absB absA with neg := b.neg }
  else addCore a b

/-- BigHexInt::operator- of BigIntv1.cpp: differing signs delegate to
addition with the second operand's sign flipped; equal signs run the
magnitude subtraction. -/
def sub (a b : HexInt) : Except Err HexInt :=
  if a.neg != b.neg then add a { b with neg := !b.neg }
  else .ok (subCore a b)

/-- BigHexInt::shiftLeft / shiftLeftInPlace of BigIntv1.cpp: shifting by
zero or shifting a zero value is the identity; otherwise refuse when the
new length would exceed HEX_SIZE, else insert n '0' digits at the low
end. -/
def shiftLeft (v : HexInt) (n : Nat) : Except Err HexInt :=
  if n == 0 then .ok v
  else if isZero v then .ok v
  else if v.digits.length + n > HEX_SIZE then .error .overflow
  else .ok { v with digits := List.replicate n '0' ++ v.digits }

/-- BigHexInt::pad of BigIntv1.cpp: extend with high '0' digits to the
target length, refusing a target beyond HEX_SIZE; sign kept. -/
def pad (v : HexInt) (t : Nat) : Except Err HexInt :=
  if v.digits.length < t then
    if t > HEX_SIZE then .error .overflow
    else .ok { v with digits := v.digits ++ List.replicate (t - v.digits.length) '0' }
  else .ok v

/-- BigHexInt::multiplyNaive of BigIntv1.cpp: a zero operand yields the
parsed "0"; the combined length may not exceed HEX_SIZE; else the
quadratic convolution, trimmed, with the XOR sign. -/
def multiplyNaive (a b : HexInt) : Except Err HexInt :=
  if isZero a || isZero b then .ok { neg := false, digits := ['0'] }
  else if a.digits.length + b.digits.length > HEX_SIZE then .error .overflow
  else
    let acc := naiveLines (List.replicate (a.digits.length + b.digits.length) '0') 0
      a.digits b.digits
    .ok { neg := a.neg != b.neg, digits := trimHigh acc }

/-- BigHexInt::karatsuba of BigIntv1.cpp, memoization map explicit, fuel
structural.  Source order: cache hit reparses the stored string; naive
base case at the threshold; zero case; else the split length is rounded up
to even, both operands padded (capacity checked), three recursive
products, combine, the XOR sign set before trimming and memoizing. -/
def karatF (fuel : Nat) (cache : Cache) (x y : HexInt) :
    Except Err (HexInt × Cache) :=
  match fuel with
  | 0 => .error .fuelOut
  | fuel + 1 =>
    let sx := toStr x
    let sy := toStr y
    let key := if strLt sy sx then (sy, sx) else (sx, sy)
    match cacheFind cache key with
    | some v => do
        let r ← createFromString v
        .ok (r, cache)
    | none =>
      if x.digits.length ≤ THRESHOLD || y.digits.length ≤ THRESHOLD then do
        let r ← multiplyNaive x y
        .ok (r, (key, toStr r) :: cache)
      else if isZero x || isZero y then
        let z : HexInt := { neg := false, digits := ['0'] }
        .ok (z, (key, toStr z) :: cache)
      else do
        let n0 := max x.digits.length y.digits.length
        let n := if n0 % 2 ≠ 0 then n0 + 1 else n0
        let xp ← pad x n
        let yp ← pad y n
        let m := n / 2
        let low1 := getLower xp m
        let high1 := getHigher xp m
        let low2 := getLower yp m
        let high2 := getHigher yp m
        let z0c ← karatF fuel cache low1 low2
        let z2c ← karatF fuel z0c.2 high1 high2
        let sum1 ← add low1 high1
        let sum2 ← add low2 high2
        let z1c ← karatF fuel z2c.2 sum1 sum2
        let z1a ← sub z1c.1 z2c.1
        let z1 ← sub z1a z0c.1
        let part1 ← shiftLeft z2c.1 (2 * m)
        let part2 ← shiftLeft z1 m
        let t1 ← add part1 part2
        let result ← add t1 z0c.1
        let result2 := { neg := x.neg != y.neg, digits := trimHigh result.digits }
        .ok (result2, (key, toStr result2) :: z1c.2)

/-- BigHexInt::operator* of BigIntv1.cpp: Karatsuba when the combined
length exceeds twice the threshold, else naive; no sign adjustment after
(each routine sets its own sign). -/
def mulOp (cache : Cache) (a b : HexInt) : Except Err (HexInt × Cache) :=
  if a.digits.length + b.digits.length > THRESHOLD * 2 then
    karatF (max a.digits.length b.digits.length + 1) cache a b
  else do
    let r ← multiplyNaive a b
    .ok (r, cache)

/-- The quotient-digit search of BigIntv1.cpp division: try digit values 1
to 15 in order, keeping the largest whose naive product with the divisor
magnitude still fits under the current part; stop at the first that does
not. -/
def findQ (cands : List Nat) (cd dv : HexInt) (best : Nat) : Except Err Nat :=
  match cands with
  | [] => .ok best
  | d :: rest => do
      let nm ← multiplyNaive dv { neg := false, digits := [hexCharOf d] }
      if compare cd nm ≥ 0 then findQ rest cd dv d
      else .ok best

/-- Digit loop of BigHexInt::divide of BigIntv1.cpp: bring the next
dividend digit into the running part (which this variant trims), append a
'0' to the quotient when the part is still below the divisor (unless the
quotient is still empty), else find the quotient digit by linear search,
subtract that multiple, and push the digit into the quotient. -/
def divLoop (dv : HexInt) (ds : List Char) (cd q : HexInt) :
    Except Err (HexInt × HexInt) :=
  match ds with
  | [] => .ok (cd, q)
  | d :: rest =>
      let cd2 : HexInt := { neg := false, digits := trimHigh (d :: cd.digits) }
      if compare cd2 dv < 0 then do
        let q2 ←
          if q.digits.length > 1 || q.digits.headD '0' ≠ '0' then shiftLeft q 1
          else Except.ok q
        divLoop dv rest cd2 q2
      else do
        let qd ← findQ [1, 2, 3, 4, 5, 6, 7, 8, 9, 10, 11, 12, 13, 14, 15] cd2 dv 0
        let sv ← multiplyNaive dv { neg := false, digits := [hexCharOf qd] }
        let cd3 ← sub cd2 sv
        let q2 : HexInt := { q with digits := trimHigh (hexCharOf qd :: q.digits) }
        divLoop dv rest cd3 q2

/-- BigHexInt::divide of BigIntv1.cpp: work on absolute values; a zero
divisor throws; a zero dividend or a dividend below the divisor return
early; else the digit loop runs, the quotient takes the XOR sign (zero
normalized non-negative) and the remainder the dividend's sign (zero
normalized non-negative). -/
def divide (a b : HexInt) : Except Err (HexInt × HexInt) :=
  let absA := { a with neg := false }
  let absB := { b with neg := false }
  if isZero absB then .error .divisionByZero
  else if isZero absA then
    .ok ({ neg := false, digits := ['0'] }, { neg := false, digits := ['0'] })
  else if compare absA absB < 0 then
    .ok ({ neg := false, digits := ['0'] }, absA)
  else do
    let r ← divLoop absB absA.digits.reverse
      { neg := false, digits := ['0'] } { neg := false, digits := ['0'] }
    let q := r.2
    let quotient :=
      { neg := if isZero q then false else (a.neg != b.neg), digits := q.digits }
    let remainder :=
      { neg := if isZero r.1 then false else a.neg, digits := r.1.digits }
    .ok (quotient, remainder)

/-- BigIntv1.cpp BigHexInt::operator/. -/
def divOp (a b : HexInt) : Except Err HexInt := (divide a b).map (fun p => p.1)

/-- BigIntv1.cpp BigHexInt::operator%. -/
def modOp (a b : HexInt) : Except Err HexInt := (divide a b).map (fun p => p.2)

/-- BigHexInt::addOne of BigIntv1.cpp. -/
def addOne (v : HexInt) : Except Err HexInt := add v { neg := false, digits := ['1'] }

/-- BigHexInt::subtractOne of BigIntv1.cpp. -/
def subtractOne (v : HexInt) : Except Err HexInt := sub v { neg := false, digits := ['1'] }

/-- The square-and-multiply loop of BigHexInt::modPower of BigIntv1.cpp,
memoization map threaded through operator*, fuel bounded by the exponent
value. -/
def modPowerLoop (fuel : Nat) (cache : Cache) (res base exp md : HexInt) :
    Except Err (HexInt × Cache) :=
  match fuel with
  | 0 => .error .fuelOut
  | fuel + 1 =>
      if compare exp { neg := false, digits := ['0'] } > 0 then do
        let rc ←
          if hexNat (exp.digits.headD '0') % 2 ≠ 0 then do
            let pc ← mulOp cache res base
            let m ← modOp pc.1 md
            Except.ok (m, pc.2)
          else Except.ok (res, cache)
        let exp2 ← divOp exp { neg := false, digits := ['2'] }
        let bc ← mulOp rc.2 base base
        let base2 ← modOp bc.1 md
        modPowerLoop fuel bc.2 rc.1 base2 exp2 md
      else .ok (res, cache)

/-- BigHexInt::modPower of BigIntv1.cpp: no guards; the base is reduced
modulo the modulus up front (so a zero modulus throws DivisionByZero from
operator%), then the binary exponentiation loop runs while the exponent
compares above zero. -/
def modPower (cache : Cache) (a exp md : HexInt) : Except Err (HexInt × Cache) := do
  let base ← modOp a md
  modPowerLoop (hval exp.digits + 1) cache { neg := false, digits := ['1'] } base exp md

/-- The halving loop writing n - 1 as d times 2 to the s in
millerRabinTest: divide by two (through the long division) while even. -/
def mrHalve (fuel : Nat) (cache : Cache) (d : HexInt) (s : Nat) :
    Except Err (HexInt × Nat) :=
  match fuel with
  | 0 => .error .fuelOut
  | fuel + 1 =>
      if isEven d then do
        let d2 ← divOp d { neg := false, digits := ['2'] }
        mrHalve fuel cache d2 (s + 1)
      else .ok (d, s)

/-- The squaring loop of one Miller-Rabin round: up to s squarings of x
modulo n; finding value one keeps the composite verdict, finding n - 1
clears it. -/
def mrSquares (s : Nat) (cache : Cache) (x n n1 : HexInt) :
    Except Err (Bool × Cache) :=
  match s with
  | 0 => .ok (true, cache)
  | s + 1 => do
      let pc ← mulOp cache x x
      let x2 ← modOp pc.1 n
      if isOne x2 then .ok (true, pc.2)
      else if compare x2 n1 == 0 then .ok (false, pc.2)
      else mrSquares s pc.2 x2 n n1

/-- The witness rounds of millerRabinTest: each round draws the next
witness from the supplied stream (embedding the random draw in the range
two to n - 2), computes x as witness to the d modulo n, passes on one or
n - 1, else runs the squaring loop and declares composite when it keeps
the verdict. -/
def mrRounds (k : Nat) (idx : Nat) (ws : Nat → HexInt) (cache : Cache)
    (d n n1 : HexInt) (s : Nat) : Except Err (Bool × Cache) :=
  match k with
  | 0 => .ok (true, cache)
  | k + 1 => do
      let a := ws idx
      let xc ← modPower cache a d n
      if isOne xc.1 || compare xc.1 n1 == 0 then
        mrRounds k (idx + 1) ws xc.2 d n n1 s
      else do
        let sq ← mrSquares s xc.2 xc.1 n n1
        if sq.1 then .ok (false, sq.2)
        else mrRounds k (idx + 1) ws sq.2 d n n1 s

/-- BigHexInt::millerRabinTest of BigIntv1.cpp, with the random witness
draws supplied as a stream and the memoization map explicit.  Guards in
source order: n at most one is not prime; n equal to two or three is
prime; an even n is not prime.  Then n - 1 is written as d times 2 to the
s and the witness rounds run. -/
def millerRabin (cache : Cache) (n : HexInt) (k : Nat) (ws : Nat → HexInt) :
    Except Err (Bool × Cache) :=
  if compare n { neg := false, digits := ['1'] } ≤ 0 then .ok (false, cache)
  else if compare n { neg := false, digits := ['2'] } == 0
      || compare n { neg := false, digits := ['3'] } == 0 then .ok (true, cache)
  else if isEven n then .ok (false, cache)
  else do
    let n1 ← subtractOne n
    let hs ← mrHalve (hval n1.digits + 1) cache n1 0
    mrRounds k 0 ws cache hs.1 n n1 hs.2

end V1

/-- Modelled from the spec (canonicalization rule of sections 4.1 and 8):
the canonical form of a valid literal has no leading zeros, keeps the
minus sign only when the value is negative and nonzero, and renders zero
as the single character '0'. -/
def canonicalSpec (s : List Char) : List Char :=
  let neg := s.headD ' ' == '-'
  let rest := if neg then s.tail else s
  let st := rest.dropWhile (fun c => c == '0')
  if st.isEmpty then ['0'] else (if neg then ['-'] else []) ++ st

/-- Every digit character is in the hex alphabet (the class invariant on
stored digits established by input validation). -/
def ValidHex (l : List Char) : Bool := l.all isHexDigit

/-- Every digit character is in the lower-case alphabet HEX_DIGIT_STR
(holds for digits written by the arithmetic). -/
def LowHex (l : List Char) : Bool := l.all isLowHex

/-- The digit list carries no unnecessary high zeros (the trimming loop
leaves it unchanged); in particular it is nonempty. -/
def CanonHex (l : List Char) : Bool := trimHigh l == l

/-- Well-formed hexadecimal value: valid digit characters in canonical
(trimmed, nonempty) form. -/
def WfHex (v : HexInt) : Bool := ValidHex v.digits && CanonHex v.digits

/-- Well-formed and not the negative zero (the data-model invariant that
zero is represented non-negative). -/
def WfHexS (v : HexInt) : Bool := WfHex v && !(v.neg && v.digits == ['0'])

/-- Signed integer value of a hexadecimal big integer. -/
def ivalHex (v : HexInt) : Int :=
  if v.neg then -(hval v.digits : Int) else (hval v.digits : Int)

/-- Every decimal digit value is below 10. -/
def ValidDec (l : List Nat) : Bool := l.all (fun d => d < 10)

/-- Signed integer value of a decimal big integer. -/
def ivalDec (v : DecInt) : Int :=
  if v.neg then -(dval v.digits : Int) else (dval v.digits : Int)

/-- Three-way comparison of integers as the -1 / 0 / 1 convention of the
source's compare. -/
def intCmpI (u v : Int) : Int := if u < v then -1 else if v < u then 1 else 0

/-- Value of a digit character list read most significant first. -/
def mval (l : List Char) : Nat := hval l.reverse

namespace BI

/-- Consistency of the memoization map for the BigInt.cpp / part_000
Karatsuba: every stored entry reparses on both key strings and on the
value string, the value's magnitude is the product of the key magnitudes,
its digits are lower case, and it is non-negative whenever both key values
are. -/
def CacheOK (c : Cache) : Prop :=
  ∀ k v, cacheFind c k = some v →
    ∃ x y r, createFromString k.1 = .ok x ∧ createFromString k.2 = .ok y ∧
      createFromString v = .ok r ∧
      hval r.digits = hval x.digits * hval y.digits ∧
      LowHex r.digits = true ∧
      (x.neg = false → y.neg = false → r.neg = false)

end BI

/-! Basic facts about digit characters and digit-list values. -/

theorem hexNat_lt (c : Char) : hexNat c < 16 := by
  have e0 : '0'.toNat = 48 := rfl
  unfold hexNat
  split
  · next h =>
      have h1 : 48 ≤ c.toNat := h.1
      have h2 : c.toNat ≤ 57 := h.2
      omega
  · split
    · next h =>
        have h1 : 97 ≤ c.toNat := h.1
        have h2 : c.toNat ≤ 102 := h.2
        have e1 : 'a'.toNat = 97 := rfl
        omega
    · split
      · next h =>
          have h1 : 65 ≤ c.toNat := h.1
          have h2 : c.toNat ≤ 70 := h.2
          have e2 : 'A'.toNat = 65 := rfl
          omega
      · omega

theorem hexNat_hexCharOf : ∀ n, n < 16 → hexNat (hexCharOf n) = n := by decide

theorem isLowHex_hexCharOf : ∀ n, n < 16 → isLowHex (hexCharOf n) = true := by decide

theorem hexCharOf_hexNat : ∀ c, isLowHex c = true → hexCharOf (hexNat c) = c := by
  intro c h
  have hm : c ∈ hexDigitStr := by
    simpa [isLowHex, List.contains_iff_exists_mem_beq] using h
  fin_cases hm <;> rfl

theorem isHexDigit_of_isLowHex : ∀ c, isLowHex c = true → isHexDigit c = true := by
  intro c h
  have hm : c ∈ hexDigitStr := by
    simpa [isLowHex, List.contains_iff_exists_mem_beq] using h
  fin_cases hm <;> rfl

theorem hexNat_zeroChar : hexNat '0' = 0 := by rfl

theorem lowHex_eq_zeroChar (c : Char) (hc : isLowHex c = true) (h : hexNat c = 0) :
    c = '0' := by
  have := hexCharOf_hexNat c hc
  rw [h] at this
  exact this.symm

theorem hval_append (a b : List Char) :
    hval (a ++ b) = hval a + 16 ^ a.length * hval b := by
  induction a with
  | nil => simp [hval]
  | cons c t ih =>
      show hexNat c + 16 * hval (t ++ b) = hexNat c + 16 * hval t + 16 ^ (t.length + 1) * hval b
      rw [ih, pow_succ]
      ring

theorem hval_lt (l : List Char) : hval l < 16 ^ l.length := by
  induction l with
  | nil => simp [hval]
  | cons c t ih =>
      have := hexNat_lt c
      simp only [hval, List.length_cons, pow_succ]
      omega

theorem hval_replicate_zero (n : Nat) : hval (List.replicate n '0') = 0 := by
  induction n with
  | zero => rfl
  | succ k ih => simp [List.replicate_succ, hval, ih, hexNat_zeroChar]

theorem hval_all_zero (l : List Char) (h : ∀ c ∈ l, c = '0') : hval l = 0 := by
  induction l with
  | nil => rfl
  | cons c t ih =>
      have hc : c = '0' := h c (by simp)
      simp [hval, hc, hexNat_zeroChar, ih fun d hd => h d (by simp [hd])]

theorem lowHex_all_zero_of_hval_zero (l : List Char) (hl : LowHex l = true)
    (h : hval l = 0) : ∀ c ∈ l, c = '0' := by
  induction l with
  | nil => simp
  | cons c t ih =>
      simp only [LowHex, List.all_cons, Bool.and_eq_true] at hl
      simp only [hval] at h
      intro d hd
      rcases List.mem_cons.mp hd with h1 | h2
      · subst h1
        exact lowHex_eq_zeroChar d hl.1 (by omega)
      · exact ih (by simpa [LowHex] using hl.2) (by omega) d h2

/-! Facts about trimming and canonical digit lists. -/

theorem trimHigh_ne_nil (l : List Char) : trimHigh l ≠ [] := by
  unfold trimHigh
  split
  · simp
  · next h =>
      simp only [List.isEmpty_iff] at h
      simpa using h

theorem hval_trimHigh (l : List Char) : hval (trimHigh l) = hval l := by
  unfold trimHigh
  have hsplit : l.reverse.takeWhile (fun c => c == '0') ++
      l.reverse.dropWhile (fun c => c == '0') = l.reverse :=
    List.takeWhile_append_dropWhile _ _
  split
  · next h =>
      simp only [List.isEmpty_iff] at h
      have hl : l.reverse.takeWhile (fun c => c == '0') = l.reverse := by
        rw [h, List.append_nil] at hsplit
        exact hsplit
      have hall : ∀ c ∈ l, c = '0' := by
        intro c hc
        have hc2 : c ∈ l.reverse.takeWhile (fun c => c == '0') := by
          rw [hl]
          simpa using hc
        have := List.mem_takeWhile_imp hc2
        simpa using this
      simp [hval, hexNat_zeroChar, hval_all_zero l hall]
  · next h =>
      have hdec : l = (l.reverse.dropWhile (fun c => c == '0')).reverse ++
          (l.reverse.takeWhile (fun c => c == '0')).reverse := by
        have h2 := congrArg List.reverse hsplit
        rw [List.reverse_append, List.reverse_reverse] at h2
        exact h2.symm
      conv_rhs => rw [hdec]
      rw [hval_append]
      have hz : hval (l.reverse.takeWhile (fun c => c == '0')).reverse = 0 := by
        apply hval_all_zero
        intro c hc
        simp only [List.mem_reverse] at hc
        have := List.mem_takeWhile_imp hc
        simpa using this
      simp [hz]

theorem toNat_inj_char (c d : Char) (h : c.toNat = d.toNat) : c = d := by
  have h1 := Char.ofNat_toNat c
  have h2 := Char.ofNat_toNat d
  rw [h] at h1
  rw [← h1, h2]

theorem hexNat_pos (c : Char) (hv : isHexDigit c = true) (hne : c ≠ '0') :
    1 ≤ hexNat c := by
  have e0 : '0'.toNat = 48 := rfl
  have e1 : 'a'.toNat = 97 := rfl
  have e2 : 'A'.toNat = 65 := rfl
  have hne2 : c.toNat ≠ 48 := fun he => hne (toNat_inj_char c '0' (by rw [he]; rfl))
  simp only [isHexDigit, Bool.or_eq_true, Bool.and_eq_true, decide_eq_true_eq] at hv
  unfold hexNat
  split
  · next h =>
      have h1 : 48 ≤ c.toNat := h.1
      omega
  · next hn1 =>
      split
      · next h =>
          have h1 : 97 ≤ c.toNat := h.1
          omega
      · next hn2 =>
          split
          · next h =>
              have h1 : 65 ≤ c.toNat := h.1
              omega
          · next hn3 =>
              exfalso
              cases hv with
              | inl h2 =>
                  cases h2 with
                  | inl h => exact hn1 h
                  | inr h => exact hn2 h
              | inr h => exact hn3 h

theorem canon_zero : CanonHex ['0'] = true := by decide

theorem canon_of_last_ne (t : List Char) (c : Char) (hc : c ≠ '0') :
    CanonHex (t ++ [c]) = true := by
  unfold CanonHex trimHigh
  have hrev : (t ++ [c]).reverse = c :: t.reverse := by simp
  rw [hrev]
  have hdw : List.dropWhile (fun c => c == '0') (c :: t.reverse) = c :: t.reverse := by
    rw [List.dropWhile_cons_of_neg (by simpa using hc)]
  rw [hdw]
  simp

theorem canon_cases (l : List Char) (h : CanonHex l = true) :
    l = ['0'] ∨ (l ≠ [] ∧ ∃ t c, l = t ++ [c] ∧ c ≠ '0') := by
  unfold CanonHex at h
  simp only [beq_iff_eq] at h
  rcases List.eq_nil_or_concat l with hnil | ⟨t, c, hl⟩
  · exfalso
    rw [hnil] at h
    exact trimHigh_ne_nil [] h
  · rw [List.concat_eq_append] at hl
    by_cases hc : c = '0'
    · left
      subst hc
      rw [hl] at h ⊢
      unfold trimHigh at h
      have hrev : (t ++ ['0']).reverse = '0' :: t.reverse := by simp
      rw [hrev] at h
      have hdw : List.dropWhile (fun c => c == '0') ('0' :: t.reverse) =
          List.dropWhile (fun c => c == '0') t.reverse := by
        rw [List.dropWhile_cons_of_pos (by simp)]
      rw [hdw] at h
      split at h
      · exact h.symm
      · exfalso
        have hlen := congrArg List.length h
        have hle : (List.dropWhile (fun c => c == '0') t.reverse).length ≤ t.reverse.length :=
          (List.dropWhile_sublist _).length_le
        rw [List.length_reverse] at hle
        simp at hlen
        omega
    · right
      exact ⟨by rw [hl]; simp, t, c, hl, hc⟩

theorem canon_ne_nil (l : List Char) (h : CanonHex l = true) : l ≠ [] := by
  rcases canon_cases l h with h1 | h1
  · rw [h1]; simp
  · exact h1.1

theorem canon_last_ne (l : List Char) (h : CanonHex l = true) (hlen : 2 ≤ l.length) :
    ∃ u c, l = u ++ [c] ∧ c ≠ '0' := by
  rcases canon_cases l h with h1 | h1
  · rw [h1] at hlen; simp at hlen
  · exact h1.2

theorem canon_tail (a : Char) (t : List Char) (h : CanonHex (a :: t) = true)
    (ht : t ≠ []) : CanonHex t = true := by
  obtain ⟨u, c, hu, hc⟩ := canon_last_ne (a :: t) h (by
    cases t with
    | nil => exact absurd rfl ht
    | cons x xs => simp)
  cases u with
  | nil =>
      exfalso
      simp at hu
      exact ht hu.2
  | cons u0 u2 =>
      have heq : t = u2 ++ [c] := by
        simp only [List.cons_append] at hu
        injection hu with h1 h2
      rw [heq]
      exact canon_of_last_ne u2 c hc

theorem trimHigh_canon (l : List Char) : CanonHex (trimHigh l) = true := by
  unfold trimHigh
  split
  · exact canon_zero
  · next h =>
      have hd : ∃ c r, List.dropWhile (fun c => c == '0') l.reverse = c :: r ∧ c ≠ '0' := by
        cases hdw : List.dropWhile (fun c => c == '0') l.reverse with
        | nil => rw [hdw] at h; simp at h
        | cons c r =>
            refine ⟨c, r, rfl, ?_⟩
            have hhd := List.head_dropWhile_not (fun c => c == '0') (l := l.reverse)
            rw [hdw] at hhd
            simpa using hhd (by simp)
      obtain ⟨c, r, hcr, hc⟩ := hd
      rw [hcr]
      have hrev : (c :: r).reverse = r.reverse ++ [c] := by simp
      rw [hrev]
      exact canon_of_last_ne _ _ hc

theorem trimHigh_length_le (l : List Char) (h : l ≠ []) :
    (trimHigh l).length ≤ l.length := by
  unfold trimHigh
  split
  · next he =>
      have h1 : 1 ≤ l.length := by
        cases l with
        | nil => exact absurd rfl h
        | cons a t => simp
      simpa using h1
  · next he =>
      have hle : (List.dropWhile (fun c => c == '0') l.reverse).length ≤ l.reverse.length :=
        (List.dropWhile_sublist _).length_le
      simpa using hle

theorem canon_hval_lower (l : List Char) (hv : ValidHex l = true)
    (hc : CanonHex l = true) (hlen : 2 ≤ l.length) :
    16 ^ (l.length - 1) ≤ hval l := by
  obtain ⟨t, c, hl, hne⟩ := canon_last_ne l hc hlen
  subst hl
  rw [hval_append]
  have hcv : isHexDigit c = true := by
    simp only [ValidHex, List.all_append, Bool.and_eq_true, List.all_cons, List.all_nil,
      Bool.and_true] at hv
    exact hv.2
  have h1 : 1 ≤ hexNat c := hexNat_pos c hcv hne
  have hsingle : hval [c] = hexNat c := by simp [hval]
  simp only [List.length_append, List.length_cons, List.length_nil, Nat.zero_add,
    Nat.add_sub_cancel]
  calc 16 ^ t.length = 16 ^ t.length * 1 := by ring
  _ ≤ 16 ^ t.length * hval [c] := by
      apply Nat.mul_le_mul_left
      rw [hsingle]
      exact h1
  _ ≤ hval t + 16 ^ t.length * hval [c] := by omega

theorem canon_length_le (l : List Char) (hv : ValidHex l = true)
    (hc : CanonHex l = true) (k : Nat) (hk : 1 ≤ k) (h : hval l < 16 ^ k) :
    l.length ≤ k := by
  by_contra hcon
  push_neg at hcon
  have h2 : 2 ≤ l.length := by omega
  have hlow := canon_hval_lower l hv hc h2
  have hpow : 16 ^ k ≤ 16 ^ (l.length - 1) := Nat.pow_le_pow_right (by norm_num) (by omega)
  omega

theorem canon_low_zero (l : List Char) (hc : CanonHex l = true)
    (hl : LowHex l = true) (h : hval l = 0) : l = ['0'] := by
  rcases canon_cases l hc with h1 | ⟨_, t, c, hl2, hne⟩
  · exact h1
  · exfalso
    have hall := lowHex_all_zero_of_hval_zero l hl h
    exact hne (hall c (by rw [hl2]; simp))

theorem canon_cons_last_zero (a : Char) (l : List Char)
    (h : CanonHex (a :: (l ++ ['0'])) = true) : False := by
  obtain ⟨u, c, hu, hc⟩ := canon_last_ne _ h (by
    have hlen : (a :: (l ++ ['0'])).length = l.length + 2 := by simp
    omega)
  apply hc
  have h1 := List.getLast?_concat (a := c) u
  rw [← hu] at h1
  have h2 := List.getLast?_concat (a := '0') (a :: l)
  simp only [List.cons_append] at h1 h2
  rw [h1] at h2
  exact Option.some_inj.mp h2

theorem canon_low_inj (p : List Char) (q : List Char) (hcp : CanonHex p = true)
    (hlp : LowHex p = true) (hcq : CanonHex q = true) (hlq : LowHex q = true)
    (h : hval p = hval q) : p = q := by
  induction p generalizing q with
  | nil => exact absurd rfl (canon_ne_nil [] hcp)
  | cons a t ih =>
      cases q with
      | nil => exact absurd rfl (canon_ne_nil [] hcq)
      | cons b s =>
          simp only [LowHex, List.all_cons, Bool.and_eq_true] at hlp hlq
          have ha := hexNat_lt a
          have hb := hexNat_lt b
          simp only [hval] at h
          have hd : hexNat a = hexNat b := by omega
          have hts : hval t = hval s := by omega
          have hab : a = b := by
            rw [← hexCharOf_hexNat a hlp.1, ← hexCharOf_hexNat b hlq.1, hd]
          subst hab
          have hlt : LowHex t = true := hlp.2
          have hls : LowHex s = true := hlq.2
          cases ht : t with
          | nil =>
              cases hs : s with
              | nil => rfl
              | cons s0 s2 =>
                  exfalso
                  subst ht hs
                  have hcs : CanonHex (s0 :: s2) = true := canon_tail a _ hcq (by simp)
                  have hz : hval (s0 :: s2) = 0 := by rw [← hts]; rfl
                  have hone := canon_low_zero _ hcs hls hz
                  rw [hone] at hcq
                  exact canon_cons_last_zero a [] (by simpa using hcq)
          | cons t0 t2 =>
              cases hs : s with
              | nil =>
                  exfalso
                  subst ht hs
                  have hct : CanonHex (t0 :: t2) = true := canon_tail a _ hcp (by simp)
                  have hz : hval (t0 :: t2) = 0 := by rw [hts]; rfl
                  have hone := canon_low_zero _ hct hlt hz
                  rw [hone] at hcp
                  exact canon_cons_last_zero a [] (by simpa using hcp)
              | cons s0 s2 =>
                  subst ht hs
                  have hct : CanonHex (t0 :: t2) = true := canon_tail a _ hcp (by simp)
                  have hcs : CanonHex (s0 :: s2) = true := canon_tail a _ hcq (by simp)
                  rw [ih (s0 :: s2) hct hlt hcs hls hts]

/-! List closure facts for the digit-character predicates. -/

theorem lowHex_append (a b : List Char) :
    LowHex (a ++ b) = (LowHex a && LowHex b) := by
  simp [LowHex, List.all_append]

theorem lowHex_replicate_zero (n : Nat) : LowHex (List.replicate n '0') = true := by
  simp only [LowHex, List.all_eq_true]
  intro c hc
  rw [List.eq_of_mem_replicate hc]
  decide

theorem lowHex_take (l : List Char) (n : Nat) (h : LowHex l = true) :
    LowHex (l.take n) = true := by
  simp only [LowHex, List.all_eq_true] at h ⊢
  exact fun c hc => h c (List.mem_of_mem_take hc)

theorem lowHex_drop (l : List Char) (n : Nat) (h : LowHex l = true) :
    LowHex (l.drop n) = true := by
  simp only [LowHex, List.all_eq_true] at h ⊢
  exact fun c hc => h c (List.mem_of_mem_drop hc)

theorem lowHex_reverse (l : List Char) (h : LowHex l = true) :
    LowHex l.reverse = true := by
  simp only [LowHex, List.all_eq_true] at h ⊢
  exact fun c hc => h c (List.mem_reverse.mp hc)

theorem lowHex_trimHigh (l : List Char) (h : LowHex l = true) :
    LowHex (trimHigh l) = true := by
  unfold trimHigh
  split
  · decide
  · apply lowHex_reverse
    simp only [LowHex, List.all_eq_true] at h ⊢
    exact fun c hc => h c (by
      have := List.dropWhile_sublist (l := l.reverse) (p := fun c => c == '0')
      exact List.mem_reverse.mp (this.mem hc))

theorem validHex_append (a b : List Char) :
    ValidHex (a ++ b) = (ValidHex a && ValidHex b) := by
  simp [ValidHex, List.all_append]

theorem validHex_replicate_zero (n : Nat) : ValidHex (List.replicate n '0') = true := by
  simp only [ValidHex, List.all_eq_true]
  intro c hc
  rw [List.eq_of_mem_replicate hc]
  decide

theorem validHex_take (l : List Char) (n : Nat) (h : ValidHex l = true) :
    ValidHex (l.take n) = true := by
  simp only [ValidHex, List.all_eq_true] at h ⊢
  exact fun c hc => h c (List.mem_of_mem_take hc)

theorem validHex_drop (l : List Char) (n : Nat) (h : ValidHex l = true) :
    ValidHex (l.drop n) = true := by
  simp only [ValidHex, List.all_eq_true] at h ⊢
  exact fun c hc => h c (List.mem_of_mem_drop hc)

theorem validHex_of_lowHex (l : List Char) (h : LowHex l = true) :
    ValidHex l = true := by
  simp only [LowHex, ValidHex, List.all_eq_true] at h ⊢
  exact fun c hc => isHexDigit_of_isLowHex c (h c hc)

/-! Most-significant-first comparison against values. -/

theorem mval_nil : mval [] = 0 := rfl

theorem mval_cons (x : Char) (t : List Char) :
    mval (x :: t) = hexNat x * 16 ^ t.length + mval t := by
  unfold mval
  rw [List.reverse_cons, hval_append, List.length_reverse]
  simp [hval]
  ring

theorem mval_lt (l : List Char) : mval l < 16 ^ l.length := by
  have := hval_lt l.reverse
  simpa [mval] using this

theorem intCmpI_add_left (a u v : Int) : intCmpI (a + u) (a + v) = intCmpI u v := by
  unfold intCmpI
  split
  · next h => rw [if_pos (by omega)]
  · next h =>
      split
      · next h2 => rw [if_neg (by omega), if_pos (by omega)]
      · next h2 => rw [if_neg (by omega), if_neg (by omega)]

theorem intCmpI_of_lt (u v : Int) (h : u < v) : intCmpI u v = -1 := by
  unfold intCmpI
  rw [if_pos h]

theorem intCmpI_of_gt (u v : Int) (h : v < u) : intCmpI u v = 1 := by
  unfold intCmpI
  rw [if_neg (by omega), if_pos h]

theorem intCmpI_of_eq (u v : Int) (h : u = v) : intCmpI u v = 0 := by
  unfold intCmpI
  rw [if_neg (by omega), if_neg (by omega)]

theorem cmpDigs_val (X Y : List Char) (hlen : X.length = Y.length) :
    cmpDigs X Y = intCmpI (mval X) (mval Y) := by
  induction X generalizing Y with
  | nil =>
      cases Y with
      | nil => rfl
      | cons y ys => simp at hlen
  | cons x t ih =>
      cases Y with
      | nil => simp at hlen
      | cons y s =>
          simp only [List.length_cons, Nat.add_right_cancel_iff] at hlen
          unfold cmpDigs
          by_cases hd : hexNat x = hexNat y
          · rw [if_neg (by omega), ih s hlen]
            rw [mval_cons, mval_cons, hd, ← hlen]
            push_cast
            rw [intCmpI_add_left]
          · rw [if_pos hd]
            have hmt := mval_lt t
            have hms := mval_lt s
            rw [← hlen] at hms
            by_cases hgt : hexNat x > hexNat y
            · rw [if_pos hgt]
              have hlt : mval (y :: s) < mval (x :: t) := by
                rw [mval_cons, mval_cons, ← hlen]
                calc hexNat y * 16 ^ t.length + mval s
                    < hexNat y * 16 ^ t.length + 16 ^ t.length := by omega
                  _ = (hexNat y + 1) * 16 ^ t.length := by ring
                  _ ≤ hexNat x * 16 ^ t.length := by
                      apply Nat.mul_le_mul_right
                      omega
                  _ ≤ hexNat x * 16 ^ t.length + mval t := by omega
              have hlt2 : (mval (y :: s) : Int) < (mval (x :: t) : Int) := by
                exact_mod_cast hlt
              rw [intCmpI_of_gt _ _ hlt2]
            · rw [if_neg hgt]
              have hlt : mval (x :: t) < mval (y :: s) := by
                rw [mval_cons, mval_cons, ← hlen]
                calc hexNat x * 16 ^ t.length + mval t
                    < hexNat x * 16 ^ t.length + 16 ^ t.length := by omega
                  _ = (hexNat x + 1) * 16 ^ t.length := by ring
                  _ ≤ hexNat y * 16 ^ t.length := by
                      apply Nat.mul_le_mul_right
                      omega
                  _ ≤ hexNat y * 16 ^ t.length + mval s := by omega
              have hlt2 : (mval (x :: t) : Int) < (mval (y :: s) : Int) := by
                exact_mod_cast hlt
              rw [intCmpI_of_lt _ _ hlt2]

/-! Facts about the fixed-slot view. -/

theorem slots_length (n : Nat) (l : List Char) : (slots n l).length = n := by
  unfold slots
  simp only [List.length_append, List.length_take, List.length_replicate]
  omega

theorem hval_slots (n : Nat) (l : List Char) (h : l.length ≤ n) :
    hval (slots n l) = hval l := by
  unfold slots
  rw [List.take_of_length_le h, hval_append, hval_replicate_zero]
  ring

theorem lowHex_slots (n : Nat) (l : List Char) (h : LowHex l = true) :
    LowHex (slots n l) = true := by
  unfold slots
  rw [lowHex_append, lowHex_take l n h, lowHex_replicate_zero]
  rfl

theorem mval_reverse (l : List Char) : mval l.reverse = hval l := by
  simp [mval]

/-! Value semantics of the carry and borrow loops. -/

theorem hval_take_cons (ys : List Char) (n : Nat) :
    hval (ys.take (n + 1)) = hexNat (ys.headD '0') + 16 * hval (ys.tail.take n) := by
  cases ys with
  | nil => simp [hval, hexNat_zeroChar]
  | cons y yt => simp [hval]

theorem addSlots_cons (x : Char) (xs ys : List Char) (c : Nat) :
    addSlots (x :: xs) ys c =
      (hexCharOf ((hexNat x + hexNat (ys.headD '0') + c) % 16) ::
        (addSlots xs ys.tail ((hexNat x + hexNat (ys.headD '0') + c) / 16)).1,
       (addSlots xs ys.tail ((hexNat x + hexNat (ys.headD '0') + c) / 16)).2) := rfl

theorem addSlots_spec (xs : List Char) : ∀ ys c, c ≤ 1 →
    (addSlots xs ys c).1.length = xs.length ∧
    LowHex (addSlots xs ys c).1 = true ∧
    (addSlots xs ys c).2 ≤ 1 ∧
    hval (addSlots xs ys c).1 + 16 ^ xs.length * (addSlots xs ys c).2 =
      hval xs + hval (ys.take xs.length) + c := by
  induction xs with
  | nil =>
      intro ys c hc
      refine ⟨rfl, rfl, hc, ?_⟩
      simp [addSlots, hval]
  | cons x t ih =>
      intro ys c hc
      have hx := hexNat_lt x
      have hy := hexNat_lt (ys.headD '0')
      have hcar : (hexNat x + hexNat (ys.headD '0') + c) / 16 ≤ 1 := by omega
      obtain ⟨ihl, ihlow, ihc, ihv⟩ :=
        ih ys.tail ((hexNat x + hexNat (ys.headD '0') + c) / 16) hcar
      rw [addSlots_cons]
      refine ⟨by simp only [List.length_cons]; rw [ihl], ?_, ihc, ?_⟩
      · simp only [LowHex, List.all_cons, Bool.and_eq_true]
        exact ⟨isLowHex_hexCharOf _ (Nat.mod_lt _ (by norm_num)), ihlow⟩
      · simp only [hval, List.length_cons]
        rw [hexNat_hexCharOf _ (Nat.mod_lt _ (by norm_num))]
        rw [hval_take_cons ys t.length]
        rw [show (16 : Nat) ^ (t.length + 1) = 16 * 16 ^ t.length from by ring, mul_assoc]
        omega

theorem subSlots_cons (x : Char) (xs ys : List Char) (brw : Nat) :
    subSlots (x :: xs) ys brw =
      (if hexNat x < hexNat (ys.headD '0') + brw then
        hexCharOf (hexNat x + 16 - (hexNat (ys.headD '0') + brw)) :: subSlots xs ys.tail 1
      else hexCharOf (hexNat x - (hexNat (ys.headD '0') + brw)) :: subSlots xs ys.tail 0) := rfl

theorem subSlots_spec (xs : List Char) : ∀ ys b, b ≤ 1 →
    hval (ys.take xs.length) + b ≤ hval xs →
    (subSlots xs ys b).length = xs.length ∧
    LowHex (subSlots xs ys b) = true ∧
    hval (subSlots xs ys b) = hval xs - (hval (ys.take xs.length) + b) := by
  induction xs with
  | nil =>
      intro ys b hb hle
      refine ⟨rfl, rfl, ?_⟩
      simp only [List.length_nil, List.take_zero, hval] at hle ⊢
      omega
  | cons x t ih =>
      intro ys b hb hle
      have hx := hexNat_lt x
      have hy := hexNat_lt (ys.headD '0')
      simp only [List.length_cons] at hle
      rw [hval_take_cons ys t.length] at hle
      simp only [hval] at hle
      rw [subSlots_cons]
      by_cases hcase : hexNat x < hexNat (ys.headD '0') + b
      · rw [if_pos hcase]
        have hrec : hval (ys.tail.take t.length) + 1 ≤ hval t := by omega
        obtain ⟨ihl, ihlow, ihv⟩ := ih ys.tail 1 (by omega) hrec
        have hdig : hexNat x + 16 - (hexNat (ys.headD '0') + b) < 16 := by omega
        refine ⟨by simp only [List.length_cons]; rw [ihl], ?_, ?_⟩
        · simp only [LowHex, List.all_cons, Bool.and_eq_true]
          exact ⟨isLowHex_hexCharOf _ hdig, ihlow⟩
        · simp only [hval, List.length_cons]
          rw [hexNat_hexCharOf _ hdig, ihv, hval_take_cons ys t.length]
          omega
      · rw [if_neg hcase]
        have hrec : hval (ys.tail.take t.length) + 0 ≤ hval t := by omega
        obtain ⟨ihl, ihlow, ihv⟩ := ih ys.tail 0 (by omega) hrec
        have hdig : hexNat x - (hexNat (ys.headD '0') + b) < 16 := by omega
        refine ⟨by simp only [List.length_cons]; rw [ihl], ?_, ?_⟩
        · simp only [LowHex, List.all_cons, Bool.and_eq_true]
          exact ⟨isLowHex_hexCharOf _ hdig, ihlow⟩
        · simp only [hval, List.length_cons]
          rw [hexNat_hexCharOf _ hdig, ihv, hval_take_cons ys t.length]
          omega

/-! Value specifications of the BigInt.cpp / part_000 hexadecimal
operations on in-range operands. -/

namespace BI

theorem cmp64_val (a b : List Char) (ha : a.length ≤ 64) (hb : b.length ≤ 64) :
    cmpDigs (slots HEX_SIZE a).reverse (slots HEX_SIZE b).reverse =
      intCmpI (hval a) (hval b) := by
  rw [cmpDigs_val _ _ (by simp [slots_length, HEX_SIZE])]
  rw [mval_reverse, mval_reverse, hval_slots _ _ (by simpa [HEX_SIZE] using ha),
    hval_slots _ _ (by simpa [HEX_SIZE] using hb)]

theorem addCore_spec (a b : HexInt) (ha : a.digits.length ≤ 64)
    (hb : b.digits.length ≤ 64) :
    (addCore a b).neg = a.neg ∧
    hval (addCore a b).digits = hval a.digits + hval b.digits ∧
    CanonHex (addCore a b).digits = true ∧ LowHex (addCore a b).digits = true := by
  obtain ⟨hl, hlow, hc, hv⟩ := addSlots_spec (slots HEX_SIZE a.digits) (slots HEX_SIZE b.digits) 0
    (by omega)
  have hsa : hval (slots HEX_SIZE a.digits) = hval a.digits :=
    hval_slots _ _ (by simpa [HEX_SIZE] using ha)
  have hsb : hval (slots HEX_SIZE b.digits) = hval b.digits :=
    hval_slots _ _ (by simpa [HEX_SIZE] using hb)
  rw [slots_length] at hl hv
  have htk : (slots HEX_SIZE b.digits).take HEX_SIZE = slots HEX_SIZE b.digits :=
    List.take_of_length_le (le_of_eq (slots_length _ _))
  rw [htk, hsa, hsb] at hv
  unfold addCore
  refine ⟨rfl, ?_, trimHigh_canon _, ?_⟩
  · rw [hval_trimHigh]
    split
    · next hcar =>
        rw [hval_append, hl]
        simp only [hval]
        rw [hexNat_hexCharOf _ (by omega)]
        simp only [Nat.mul_zero, Nat.add_zero]
        omega
    · next hcar =>
        have hz : (addSlots (slots HEX_SIZE a.digits) (slots HEX_SIZE b.digits) 0).2 = 0 := by
          omega
        rw [hz] at hv
        omega
  · apply lowHex_trimHigh
    split
    · rw [lowHex_append, hlow]
      simp only [Bool.true_and, LowHex, List.all_cons, List.all_nil, Bool.and_true]
      exact isLowHex_hexCharOf _ (by omega)
    · exact hlow

theorem subCore_spec (a b : HexInt) (ha : a.digits.length ≤ 64)
    (hb : b.digits.length ≤ 64) (hna : a.neg = false)
    (hge : hval b.digits ≤ hval a.digits) :
    (subCore a b).neg = false ∧
    hval (subCore a b).digits = hval a.digits - hval b.digits ∧
    CanonHex (subCore a b).digits = true ∧ LowHex (subCore a b).digits = true := by
  unfold subCore
  rw [cmp64_val _ _ ha hb]
  have hcmp : intCmpI (hval a.digits) (hval b.digits) ≥ 0 := by
    unfold intCmpI
    split
    · next h => omega
    · split
      · norm_num
      · norm_num
  rw [if_pos hcmp]
  have hsa : hval (slots HEX_SIZE a.digits) = hval a.digits :=
    hval_slots _ _ (by simpa [HEX_SIZE] using ha)
  have hsb : hval (slots HEX_SIZE b.digits) = hval b.digits :=
    hval_slots _ _ (by simpa [HEX_SIZE] using hb)
  have htk : (slots HEX_SIZE b.digits).take (slots HEX_SIZE a.digits).length =
      slots HEX_SIZE b.digits := by
    apply List.take_of_length_le
    rw [slots_length, slots_length]
  obtain ⟨hl, hlow, hv⟩ := subSlots_spec (slots HEX_SIZE a.digits) (slots HEX_SIZE b.digits) 0
    (by omega)
    (by
      rw [htk, hsa, hsb]
      omega)
  rw [htk, hsa, hsb] at hv
  exact ⟨hna, by rw [hval_trimHigh, hv]; omega, trimHigh_canon _, lowHex_trimHigh _ hlow⟩

theorem add_eq_addCore (a b : HexInt) (hna : a.neg = false) (hnb : b.neg = false) :
    add a b = addCore a b := by
  unfold add
  rw [hna, hnb]
  simp

theorem sub_eq_subCore (a b : HexInt) (h : a.neg = b.neg) :
    sub a b = subCore a b := by
  unfold sub
  rw [h]
  simp

theorem add_nonneg_spec (a b : HexInt) (ha : a.digits.length ≤ 64)
    (hb : b.digits.length ≤ 64) (hna : a.neg = false) (hnb : b.neg = false) :
    (add a b).neg = false ∧
    hval (add a b).digits = hval a.digits + hval b.digits ∧
    CanonHex (add a b).digits = true ∧ LowHex (add a b).digits = true := by
  rw [add_eq_addCore a b hna hnb]
  obtain ⟨h1, h2, h3, h4⟩ := addCore_spec a b ha hb
  exact ⟨by rw [h1, hna], h2, h3, h4⟩

theorem sub_nonneg_spec (a b : HexInt) (ha : a.digits.length ≤ 64)
    (hb : b.digits.length ≤ 64) (hna : a.neg = false) (hnb : b.neg = false)
    (hge : hval b.digits ≤ hval a.digits) :
    (sub a b).neg = false ∧
    hval (sub a b).digits = hval a.digits - hval b.digits ∧
    CanonHex (sub a b).digits = true ∧ LowHex (sub a b).digits = true := by
  rw [sub_eq_subCore a b (by rw [hna, hnb])]
  exact subCore_spec a b ha hb hna hge

theorem shiftLeft_spec (v : HexInt) (n : Nat) (h : v.digits.length + n ≤ 64) :
    shiftLeft v n = .ok { v with digits := List.replicate n '0' ++ v.digits } := by
  unfold shiftLeft
  rw [if_neg (by simp [HEX_SIZE]; omega)]

theorem hval_shift (n : Nat) (l : List Char) :
    hval (List.replicate n '0' ++ l) = 16 ^ n * hval l := by
  rw [hval_append, hval_replicate_zero, List.length_replicate]
  omega

theorem pad_digits (v : HexInt) (n : Nat) (h : v.digits.length ≤ n) :
    (pad v n).digits = v.digits ++ List.replicate (n - v.digits.length) '0' ∧
    (pad v n).neg = v.neg := by
  unfold pad
  split
  · exact ⟨rfl, rfl⟩
  · next h2 =>
      have : n - v.digits.length = 0 := by omega
      rw [this]
      simp

end BI

/-! Value semantics of the naive-multiplication loops. -/

theorem carryProp_spec (s : List Char) : ∀ c, hval s + c < 16 ^ s.length →
    hval (carryProp s c) = hval s + c ∧
    (carryProp s c).length = s.length ∧
    (LowHex s = true → LowHex (carryProp s c) = true) := by
  induction s with
  | nil =>
      intro c hb
      simp only [hval, List.length_nil, pow_zero] at hb
      have hc : c = 0 := by omega
      subst hc
      exact ⟨rfl, rfl, fun _ => rfl⟩
  | cons x ss ih =>
      intro c hb
      unfold carryProp
      by_cases hc : c = 0
      · subst hc
        simp
      · rw [if_neg (by simpa using hc)]
        have hx := hexNat_lt x
        simp only [hval, List.length_cons, pow_succ] at hb
        have hrec : hval ss + (hexNat x + c) / 16 < 16 ^ ss.length := by omega
        obtain ⟨ihv, ihl, ihlow⟩ := ih ((hexNat x + c) / 16) hrec
        refine ⟨?_, by simp [ihl], ?_⟩
        · simp only [hval]
          rw [hexNat_hexCharOf _ (Nat.mod_lt _ (by norm_num)), ihv]
          omega
        · intro hlow
          simp only [LowHex, List.all_cons, Bool.and_eq_true] at hlow ⊢
          exact ⟨isLowHex_hexCharOf _ (Nat.mod_lt _ (by norm_num)), ihlow hlow.2⟩

theorem mulAdd_cons_cons (s0 : Char) (ss : List Char) (ad : Nat) (b : Char)
    (bs2 : List Char) (c : Nat) :
    mulAdd (s0 :: ss) ad (b :: bs2) c =
      hexCharOf ((hexNat s0 + ad * hexNat b + c) % 16) ::
        mulAdd ss ad bs2 ((hexNat s0 + ad * hexNat b + c) / 16) := rfl

theorem mulAdd_spec (bs : List Char) : ∀ s ad c, bs.length < s.length →
    hval s + ad * hval bs + c < 16 ^ s.length →
    hval (mulAdd s ad bs c) = hval s + ad * hval bs + c ∧
    (mulAdd s ad bs c).length = s.length ∧
    (LowHex s = true → LowHex (mulAdd s ad bs c) = true) := by
  induction bs with
  | nil =>
      intro s ad c hlen hb
      unfold mulAdd
      have := carryProp_spec s c (by simpa [hval] using hb)
      simpa [hval] using this
  | cons b bs2 ih =>
      intro s ad c hlen hb
      cases s with
      | nil => simp at hlen
      | cons s0 ss =>
          rw [mulAdd_cons_cons]
          have hs0 := hexNat_lt s0
          have hbd := hexNat_lt b
          have e2 : ad * (hexNat b + 16 * hval bs2) =
              ad * hexNat b + 16 * (ad * hval bs2) := by ring
          simp only [hval, List.length_cons, pow_succ] at hb
          rw [e2] at hb
          have hrec : hval ss + ad * hval bs2 +
              (hexNat s0 + ad * hexNat b + c) / 16 < 16 ^ ss.length := by omega
          obtain ⟨ihv, ihl, ihlow⟩ := ih ss ad ((hexNat s0 + ad * hexNat b + c) / 16)
            (by simpa using Nat.lt_of_succ_lt_succ hlen) hrec
          refine ⟨?_, by simp [ihl], ?_⟩
          · simp only [hval]
            rw [hexNat_hexCharOf _ (Nat.mod_lt _ (by norm_num)), ihv, e2]
            omega
          · intro hlow
            simp only [LowHex, List.all_cons, Bool.and_eq_true] at hlow ⊢
            exact ⟨isLowHex_hexCharOf _ (Nat.mod_lt _ (by norm_num)), ihlow hlow.2⟩

theorem naiveLines_go (as2 : List Char) : ∀ done rest b,
    b.length + as2.length ≤ rest.length →
    hval rest + hval as2 * hval b < 16 ^ rest.length →
    LowHex rest = true →
    ∃ R, naiveLines (done ++ rest) done.length as2 b = done ++ R ∧
      hval R = hval rest + hval as2 * hval b ∧
      R.length = rest.length ∧ LowHex R = true := by
  induction as2 with
  | nil =>
      intro done rest b hlen hb hlow
      exact ⟨rest, rfl, by simp [hval], rfl, hlow⟩
  | cons a0 ar ih =>
      intro done rest b hlen hb hlow
      have e1 : hval (a0 :: ar) * hval b =
          hexNat a0 * hval b + 16 * (hval ar * hval b) := by
        simp only [hval]
        ring
      rw [e1] at hb
      simp only [List.length_cons] at hlen
      have hblen : b.length < rest.length := by omega
      have hbound : hval rest + hexNat a0 * hval b + 0 < 16 ^ rest.length := by omega
      obtain ⟨mv, ml, mlow⟩ := mulAdd_spec b rest (hexNat a0) 0 hblen hbound
      have hstep : naiveLines (done ++ rest) done.length (a0 :: ar) b =
          naiveLines (done ++ mulAdd rest (hexNat a0) b 0) (done.length + 1) ar b := by
        show naiveLines ((done ++ rest).take done.length ++
          mulAdd ((done ++ rest).drop done.length) (hexNat a0) b 0) (done.length + 1) ar b =
          naiveLines (done ++ mulAdd rest (hexNat a0) b 0) (done.length + 1) ar b
        rw [List.take_left, List.drop_left]
      cases hm : mulAdd rest (hexNat a0) b 0 with
      | nil =>
          exfalso
          rw [hm] at ml
          simp at ml
          omega
      | cons m0 mrest =>
          rw [hm] at mv ml mlow
          simp only [List.length_cons] at ml
          have hlow2 : LowHex (m0 :: mrest) = true := mlow hlow
          simp only [LowHex, List.all_cons, Bool.and_eq_true] at hlow2
          have hrecbound : hval mrest + hval ar * hval b < 16 ^ mrest.length := by
            simp only [hval] at mv
            have hmr : hval rest < 16 ^ rest.length := hval_lt rest
            have hm0 := hexNat_lt m0
            have hrl : rest.length = mrest.length + 1 := by omega
            rw [hrl, pow_succ] at hb
            omega
          obtain ⟨R2, ihe, ihv, ihl, ihlow⟩ := ih (done ++ [m0]) mrest b
            (by omega) hrecbound (by simpa [LowHex] using hlow2.2)
          refine ⟨m0 :: R2, ?_, ?_, ?_, ?_⟩
          · rw [hstep, hm]
            have hassoc : done ++ m0 :: mrest = (done ++ [m0]) ++ mrest := by simp
            have hlen2 : done.length + 1 = (done ++ [m0]).length := by simp
            rw [hassoc, hlen2, ihe]
            simp
          · simp only [hval]
            rw [ihv]
            simp only [hval] at mv
            have e3 : (hexNat a0 + 16 * hval ar) * hval b =
                hexNat a0 * hval b + 16 * (hval ar * hval b) := by ring
            rw [e3]
            omega
          · simp only [List.length_cons]
            omega
          · simp only [LowHex, List.all_cons, Bool.and_eq_true]
            exact ⟨hlow2.1, by simpa [LowHex] using ihlow⟩

theorem canon_trimHigh_eq (l : List Char) (h : CanonHex l = true) : trimHigh l = l := by
  simpa [CanonHex] using h

theorem trimHigh_idem (l : List Char) : trimHigh (trimHigh l) = trimHigh l :=
  canon_trimHigh_eq _ (trimHigh_canon l)

theorem validHex_trimHigh (l : List Char) (h : ValidHex l = true) :
    ValidHex (trimHigh l) = true := by
  unfold trimHigh
  split
  · decide
  · simp only [ValidHex, List.all_eq_true] at h ⊢
    intro c hc
    apply h
    have hs : List.Sublist (l.reverse.dropWhile (fun c => c == '0')) l.reverse :=
      List.dropWhile_sublist _
    exact List.mem_reverse.mp (hs.mem (List.mem_reverse.mp hc))

theorem hexDigit_ne_dash (c : Char) (h : isHexDigit c = true) : c ≠ '-' := by
  intro he
  subst he
  revert h
  decide

namespace BI

theorem multiplyNaive_spec (a b : HexInt)
    (hcap : a.digits.length + b.digits.length < 128) :
    ∃ r, multiplyNaive a b = .ok r ∧ r.neg = (a.neg != b.neg) ∧
      hval r.digits = hval a.digits * hval b.digits ∧
      CanonHex r.digits = true ∧ LowHex r.digits = true := by
  unfold multiplyNaive
  rw [if_neg (by simp only [RESULT_SIZE]; omega)]
  have hrep : (List.replicate (a.digits.length + b.digits.length) '0').length =
      a.digits.length + b.digits.length := List.length_replicate _ _
  obtain ⟨R, he, hv, hlen, hlow⟩ :=
    naiveLines_go a.digits [] (List.replicate (a.digits.length + b.digits.length) '0')
      b.digits
      (by rw [hrep]; omega)
      (by
        rw [hrep, hval_replicate_zero, Nat.zero_add, pow_add]
        exact Nat.mul_lt_mul'' (hval_lt a.digits) (hval_lt b.digits))
      (lowHex_replicate_zero _)
  simp only [List.nil_append, List.length_nil] at he
  refine ⟨_, rfl, rfl, ?_, ?_, ?_⟩
  · simp only [he, hval_trimHigh, hv, hval_replicate_zero, Nat.zero_add]
  · exact trimHigh_canon _
  · exact lowHex_trimHigh _ (he ▸ hlow)

end BI

theorem validHex_reverse (l : List Char) : ValidHex l.reverse = ValidHex l := by
  simp [ValidHex]

theorem reverse_ne_nil_of_ne_nil (l : List Char) (h : l ≠ []) : l.reverse ≠ [] := by
  simpa using h

namespace BI

theorem parse_toStr (v : HexInt) (hv : ValidHex v.digits = true)
    (hcap : (trimHigh v.digits).length ≤ 64) :
    createFromString (toStr v) = .ok ⟨v.neg, trimHigh v.digits⟩ := by
  have htne : trimHigh v.digits ≠ [] := trimHigh_ne_nil v.digits
  have htv : ValidHex (trimHigh v.digits) = true := validHex_trimHigh _ hv
  have hrne : (trimHigh v.digits).reverse ≠ [] := reverse_ne_nil_of_ne_nil _ htne
  have hrv : (trimHigh v.digits).reverse.all isHexDigit = true := by
    rw [show ((trimHigh v.digits).reverse.all isHexDigit) =
      ValidHex (trimHigh v.digits).reverse from rfl, validHex_reverse]
    exact htv
  cases hn : v.neg with
  | true =>
    have hs : toStr v = '-' :: (trimHigh v.digits).reverse := by
      simp [toStr, hn]
    rw [hs]
    have hemp : (trimHigh v.digits).reverse.isEmpty = false := by
      cases hcc : (trimHigh v.digits).reverse with
      | nil => exact absurd hcc hrne
      | cons c cs => rfl
    have hvi : isValidInput ('-' :: (trimHigh v.digits).reverse) = true := by
      simp only [isValidInput, hemp, Bool.not_false, Bool.true_and]
      exact hrv
    unfold createFromString
    rw [hvi]
    simp only [Bool.not_true, Bool.false_eq_true, if_false, List.headD_cons,
      beq_self_eq_true, if_true, List.tail_cons, HEX_SIZE]
    rw [if_neg (by simp only [List.length_reverse]; omega),
      List.reverse_reverse, trimHigh_idem]
  | false =>
    have hs : toStr v = (trimHigh v.digits).reverse := by
      simp [toStr, hn]
    obtain ⟨c, cs, hcc⟩ : ∃ c cs, (trimHigh v.digits).reverse = c :: cs := by
      cases hr : (trimHigh v.digits).reverse with
      | nil => exact absurd hr hrne
      | cons c cs => exact ⟨c, cs, rfl⟩
    have hchex : isHexDigit c = true := by
      have := List.all_eq_true.mp hrv c (by rw [hcc]; exact List.mem_cons_self _ _)
      exact this
    have hcd : c ≠ '-' := hexDigit_ne_dash c hchex
    have hvi : isValidInput ((trimHigh v.digits).reverse) = true := by
      rw [hcc]
      unfold isValidInput
      split
      · rename_i heq
        exact absurd heq (by simp)
      · rename_i rest heq
        exact absurd (List.cons_eq_cons.mp heq).1 hcd
      · rw [← hcc]
        exact hrv
    rw [hs]
    unfold createFromString
    rw [hvi]
    simp only [Bool.not_true, Bool.false_eq_true, if_false]
    have hhd : ((trimHigh v.digits).reverse.headD ' ' == '-') = false := by
      rw [hcc]
      simp only [List.headD_cons]
      exact beq_eq_false_iff_ne.mpr hcd
    rw [hhd]
    simp only [Bool.false_eq_true, if_false, HEX_SIZE]
    rw [if_neg (by simp only [List.length_reverse]; omega),
      List.reverse_reverse, trimHigh_idem]

end BI

theorem single_zero_of_flag (l : List Char)
    (h : (l.length == 1 && l.headD ' ' == '0') = true) : l = ['0'] := by
  cases l with
  | nil => simp at h
  | cons a t =>
      simp only [Bool.and_eq_true, beq_iff_eq, List.length_cons, List.headD_cons] at h
      obtain ⟨h1, h2⟩ := h
      have ht : t = [] := List.length_eq_zero.mp (by omega)
      rw [h2, ht]

namespace BI

theorem cacheOK_nil : CacheOK [] := by
  intro k v h
  simp [cacheFind] at h

theorem cacheOK_cons (c : Cache) (k : List Char × List Char) (v : List Char)
    (hc : CacheOK c) (x y r : HexInt)
    (h1 : createFromString k.1 = .ok x) (h2 : createFromString k.2 = .ok y)
    (h3 : createFromString v = .ok r)
    (h4 : hval r.digits = hval x.digits * hval y.digits)
    (h5 : LowHex r.digits = true)
    (h6 : x.neg = false → y.neg = false → r.neg = false) :
    CacheOK ((k, v) :: c) := by
  intro k2 v2 hf
  unfold cacheFind at hf
  split at hf
  · next heq =>
      have hk : k = k2 := eq_of_beq heq
      subst hk
      cases hf
      exact ⟨x, y, r, h1, h2, h3, h4, h5, h6⟩
  · exact hc k2 v2 hf

theorem createFromString_canon (s : List Char) (r : HexInt)
    (h : createFromString s = .ok r) : CanonHex r.digits = true := by
  simp only [createFromString] at h
  repeat' split at h
  all_goals first
    | (injection h with h2; rw [← h2]; exact trimHigh_canon _)
    | exact absurd h (by simp)

theorem cacheOK_record (c : Cache) (x y r : HexInt)
    (hvx : ValidHex x.digits = true) (hvy : ValidHex y.digits = true)
    (hlx : (trimHigh x.digits).length ≤ 64) (hly : (trimHigh y.digits).length ≤ 64)
    (hvr : ValidHex r.digits = true) (hlr : (trimHigh r.digits).length ≤ 64)
    (hprod : hval r.digits = hval x.digits * hval y.digits)
    (hlow : LowHex r.digits = true)
    (hsign : x.neg = false → y.neg = false → r.neg = false)
    (hc : CacheOK c) :
    CacheOK (((if strLt (toStr y) (toStr x) then (toStr y, toStr x)
      else (toStr x, toStr y)), toStr r) :: c) := by
  have hpx := parse_toStr x hvx hlx
  have hpy := parse_toStr y hvy hly
  have hpr := parse_toStr r hvr hlr
  split
  · exact cacheOK_cons c _ _ hc ⟨y.neg, trimHigh y.digits⟩ ⟨x.neg, trimHigh x.digits⟩
      ⟨r.neg, trimHigh r.digits⟩ hpy hpx hpr
      (by simp only [hval_trimHigh]; rw [hprod]; ring)
      (lowHex_trimHigh _ hlow)
      (fun hy hx => hsign hx hy)
  · exact cacheOK_cons c _ _ hc ⟨x.neg, trimHigh x.digits⟩ ⟨y.neg, trimHigh y.digits⟩
      ⟨r.neg, trimHigh r.digits⟩ hpx hpy hpr
      (by simp only [hval_trimHigh]; rw [hprod])
      (lowHex_trimHigh _ hlow)
      (fun hx hy => hsign hx hy)

theorem cacheOK_hit (c : Cache) (x y : HexInt)
    (hvx : ValidHex x.digits = true) (hvy : ValidHex y.digits = true)
    (hlx : (trimHigh x.digits).length ≤ 64) (hly : (trimHigh y.digits).length ≤ 64)
    (v : List Char) (hc : CacheOK c)
    (hf : cacheFind c (if strLt (toStr y) (toStr x) then (toStr y, toStr x)
      else (toStr x, toStr y)) = some v) :
    ∃ r, createFromString v = .ok r ∧
      hval r.digits = hval x.digits * hval y.digits ∧
      LowHex r.digits = true ∧ CanonHex r.digits = true ∧
      (x.neg = false → y.neg = false → r.neg = false) := by
  have hpx := parse_toStr x hvx hlx
  have hpy := parse_toStr y hvy hly
  split at hf
  · obtain ⟨x', y', r, h1, h2, h3, h4, h5, h6⟩ := hc _ v hf
    have hx' : x' = ⟨y.neg, trimHigh y.digits⟩ := Except.ok.inj (h1.symm.trans hpy)
    have hy' : y' = ⟨x.neg, trimHigh x.digits⟩ := Except.ok.inj (h2.symm.trans hpx)
    subst hx'
    subst hy'
    refine ⟨r, h3, ?_, h5, createFromString_canon v r h3, ?_⟩
    · rw [h4]
      simp only [hval_trimHigh]
      ring
    · intro hxn hyn
      exact h6 hyn hxn
  · obtain ⟨x', y', r, h1, h2, h3, h4, h5, h6⟩ := hc _ v hf
    have hx' : x' = ⟨x.neg, trimHigh x.digits⟩ := Except.ok.inj (h1.symm.trans hpx)
    have hy' : y' = ⟨y.neg, trimHigh y.digits⟩ := Except.ok.inj (h2.symm.trans hpy)
    subst hx'
    subst hy'
    refine ⟨r, h3, ?_, h5, createFromString_canon v r h3, ?_⟩
    · rw [h4]
      simp only [hval_trimHigh]
    · intro hxn hyn
      exact h6 hxn hyn

end BI

theorem bindOk {e a b : Type} (x : a) (g : a → Except e b) :
    ((Except.ok x : Except e a) >>= g) = g x := rfl

theorem karat_combine (L1 H1 L2 H2 k : Nat) :
    k * k * (H1 * H2) + k * ((L1 + H1) * (L2 + H2) - H1 * H2 - L1 * L2) + L1 * L2
      = (L1 + k * H1) * (L2 + k * H2) := by
  have hexp : (L1 + H1) * (L2 + H2) = L1 * L2 + L1 * H2 + H1 * L2 + H1 * H2 := by ring
  have h1 : (L1 + H1) * (L2 + H2) - H1 * H2 - L1 * L2 = L1 * H2 + H1 * L2 := by omega
  rw [h1]
  ring

theorem getLower_digits (v : HexInt) (k : Nat) (h1 : 1 ≤ k) (h2 : k ≤ v.digits.length) :
    (getLower v k).digits = v.digits.take k ∧ (getLower v k).neg = false := by
  constructor
  · simp only [getLower]
    rw [Nat.min_eq_right h2, if_neg (by simp only [beq_iff_eq]; omega)]
  · rfl

theorem getHigher_digits (v : HexInt) (k : Nat) (h : k < v.digits.length) :
    (getHigher v k).digits = v.digits.drop k ∧ (getHigher v k).neg = false := by
  unfold getHigher
  rw [if_neg (by omega)]
  exact ⟨rfl, rfl⟩

namespace BI

theorem karat_good_succ (f : Nat)
    (ih : ∀ x2 y2 : HexInt, ∀ c2 : Cache,
      ValidHex x2.digits = true → ValidHex y2.digits = true →
      1 ≤ x2.digits.length → x2.digits.length ≤ 32 →
      1 ≤ y2.digits.length → y2.digits.length ≤ 32 →
      CacheOK c2 → max x2.digits.length y2.digits.length < f →
      ∃ r c3, karatF f c2 x2 y2 = .ok (r, c3) ∧
        hval r.digits = hval x2.digits * hval y2.digits ∧
        CanonHex r.digits = true ∧ LowHex r.digits = true ∧
        (x2.neg = false → y2.neg = false → r.neg = false) ∧ CacheOK c3) :
    ∀ x y : HexInt, ∀ c : Cache,
      ValidHex x.digits = true → ValidHex y.digits = true →
      1 ≤ x.digits.length → x.digits.length ≤ 32 →
      1 ≤ y.digits.length → y.digits.length ≤ 32 →
      CacheOK c → max x.digits.length y.digits.length < f + 1 →
      ∃ r c2, karatF (f + 1) c x y = .ok (r, c2) ∧
        hval r.digits = hval x.digits * hval y.digits ∧
        CanonHex r.digits = true ∧ LowHex r.digits = true ∧
        (x.neg = false → y.neg = false → r.neg = false) ∧ CacheOK c2 := by
  intro x y c hvx hvy l1x l2x l1y l2y hc hf
  have hxne : x.digits ≠ [] := by
    intro h
    rw [h] at l1x
    simp at l1x
  have hyne : y.digits ≠ [] := by
    intro h
    rw [h] at l1y
    simp at l1y
  have hlx64 : (trimHigh x.digits).length ≤ 64 :=
    le_trans (trimHigh_length_le _ hxne) (by omega)
  have hly64 : (trimHigh y.digits).length ≤ 64 :=
    le_trans (trimHigh_length_le _ hyne) (by omega)
  cases hfind : cacheFind c (if strLt (toStr y) (toStr x) then (toStr y, toStr x)
      else (toStr x, toStr y)) with
  | some v =>
      obtain ⟨r, hr, hv, hlow, hcanon, hsign⟩ :=
        cacheOK_hit c x y hvx hvy hlx64 hly64 v hc hfind
      refine ⟨r, c, ?_, hv, hcanon, hlow, hsign, hc⟩
      simp only [karatF, hfind]
      rw [hr]
      rfl
  | none =>
      simp only [karatF, hfind]
      cases hz : ((x.digits.length == 1 && x.digits.headD ' ' == '0')
          || (y.digits.length == 1 && y.digits.headD ' ' == '0')) with
      | true =>
          rw [if_pos rfl]
          have hzero : hval x.digits = 0 ∨ hval y.digits = 0 := by
            rcases Bool.or_eq_true_iff.mp hz with h | h
            · left
              rw [single_zero_of_flag _ h]
              simp [hval, hexNat]
            · right
              rw [single_zero_of_flag _ h]
              simp [hval, hexNat]
          have hprod : hval (['0'] : List Char) = hval x.digits * hval y.digits := by
            have h0 : hval (['0'] : List Char) = 0 := by simp [hval, hexNat]
            rcases hzero with h | h <;> rw [h0, h] <;> ring
          refine ⟨⟨false, ['0']⟩, _, rfl, hprod, by decide, by decide,
            fun _ _ => rfl, ?_⟩
          exact cacheOK_record c x y ⟨false, ['0']⟩ hvx hvy hlx64 hly64
            (by decide) (by decide) hprod (by decide) (fun _ _ => rfl) hc
      | false =>
          rw [if_neg Bool.false_ne_true]
          cases ht : (decide (x.digits.length ≤ THRESHOLD) ||
              decide (y.digits.length ≤ THRESHOLD)) with
          | true =>
              rw [if_pos rfl]
              have hsum : x.digits.length + y.digits.length < 128 := by
                rcases Bool.or_eq_true_iff.mp ht with h | h <;>
                  simp only [decide_eq_true_eq, THRESHOLD] at h <;> omega
              obtain ⟨r, hmn, hneg, hvr, hcr, hlr⟩ := multiplyNaive_spec x y hsum
              simp only [hmn, bindOk]
              refine ⟨_, _, rfl, hvr, hcr, hlr, ?_, ?_⟩
              · intro hnx hny
                rw [hneg, hnx, hny]
                rfl
              · have hrlen : r.digits.length ≤ 64 := by
                  apply le_trans (canon_length_le r.digits (validHex_of_lowHex _ hlr) hcr
                    (x.digits.length + y.digits.length) (by omega) ?_) (by omega)
                  rw [hvr, pow_add]
                  exact Nat.mul_lt_mul'' (hval_lt _) (hval_lt _)
                exact cacheOK_record c x y r hvx hvy hlx64 hly64
                  (validHex_of_lowHex _ hlr)
                  (by rw [canon_trimHigh_eq _ hcr]; exact hrlen)
                  hvr hlr
                  (fun hnx hny => by rw [hneg, hnx, hny]; rfl) hc
          | false =>
              rw [if_neg Bool.false_ne_true]
              have h5 : 5 ≤ x.digits.length ∧ 5 ≤ y.digits.length := by
                have := Bool.or_eq_false_iff.mp ht
                simp only [decide_eq_false_iff_not, THRESHOLD] at this
                omega
              set n := max x.digits.length y.digits.length with hn
              set m := n / 2 with hm
              have hxn : x.digits.length ≤ n := le_max_left _ _
              have hyn : y.digits.length ≤ n := le_max_right _ _
              have hn5 : 5 ≤ n := le_trans h5.1 hxn
              have hn32 : n ≤ 32 := max_le l2x l2y
              have hm2 : 2 ≤ m := by omega
              have hmlt : m < n := by omega
              have hmnm : m ≤ n - m := by omega
              have hnm16 : n - m ≤ 16 := by omega
              have hfn : n ≤ f := by omega
              obtain ⟨hxpd, hxpn⟩ := pad_digits x n hxn
              obtain ⟨hypd, hypn⟩ := pad_digits y n hyn
              have hxpl : (pad x n).digits.length = n := by
                rw [hxpd]
                simp only [List.length_append, List.length_replicate]
                omega
              have hypl : (pad y n).digits.length = n := by
                rw [hypd]
                simp only [List.length_append, List.length_replicate]
                omega
              have hxpv : ValidHex (pad x n).digits = true := by
                rw [hxpd, validHex_append, hvx, validHex_replicate_zero]
                rfl
              have hypv : ValidHex (pad y n).digits = true := by
                rw [hypd, validHex_append, hvy, validHex_replicate_zero]
                rfl
              have hxph : hval (pad x n).digits = hval x.digits := by
                rw [hxpd, hval_append, hval_replicate_zero]
                ring
              have hyph : hval (pad y n).digits = hval y.digits := by
                rw [hypd, hval_append, hval_replicate_zero]
                ring
              obtain ⟨hl1d, hl1n⟩ := getLower_digits (pad x n) m (by omega)
                (by rw [hxpl]; omega)
              obtain ⟨hl2d, hl2n⟩ := getLower_digits (pad y n) m (by omega)
                (by rw [hypl]; omega)
              obtain ⟨hh1d, hh1n⟩ := getHigher_digits (pad x n) m (by rw [hxpl]; omega)
              obtain ⟨hh2d, hh2n⟩ := getHigher_digits (pad y n) m (by rw [hypl]; omega)
              have hl1len : (getLower (pad x n) m).digits.length = m := by
                rw [hl1d, List.length_take, hxpl]
                omega
              have hl2len : (getLower (pad y n) m).digits.length = m := by
                rw [hl2d, List.length_take, hypl]
                omega
              have hh1len : (getHigher (pad x n) m).digits.length = n - m := by
                rw [hh1d, List.length_drop, hxpl]
              have hh2len : (getHigher (pad y n) m).digits.length = n - m := by
                rw [hh2d, List.length_drop, hypl]
              have hl1v : ValidHex (getLower (pad x n) m).digits = true := by
                rw [hl1d]
                exact validHex_take _ _ hxpv
              have hl2v : ValidHex (getLower (pad y n) m).digits = true := by
                rw [hl2d]
                exact validHex_take _ _ hypv
              have hh1v : ValidHex (getHigher (pad x n) m).digits = true := by
                rw [hh1d]
                exact validHex_drop _ _ hxpv
              have hh2v : ValidHex (getHigher (pad y n) m).digits = true := by
                rw [hh2d]
                exact validHex_drop _ _ hypv
              have hL1 : hval (getLower (pad x n) m).digits < 16 ^ m := by
                have h := hval_lt (getLower (pad x n) m).digits
                rw [hl1len] at h
                exact h
              have hL2 : hval (getLower (pad y n) m).digits < 16 ^ m := by
                have h := hval_lt (getLower (pad y n) m).digits
                rw [hl2len] at h
                exact h
              have hH1 : hval (getHigher (pad x n) m).digits < 16 ^ (n - m) := by
                have h := hval_lt (getHigher (pad x n) m).digits
                rw [hh1len] at h
                exact h
              have hH2 : hval (getHigher (pad y n) m).digits < 16 ^ (n - m) := by
                have h := hval_lt (getHigher (pad y n) m).digits
                rw [hh2len] at h
                exact h
              have hdecx : hval x.digits = hval (getLower (pad x n) m).digits
                  + 16 ^ m * hval (getHigher (pad x n) m).digits := by
                rw [hl1d, hh1d, ← hxph]
                conv_lhs => rw [← List.take_append_drop m (pad x n).digits]
                rw [hval_append, List.length_take, hxpl, Nat.min_eq_left (by omega)]
              have hdecy : hval y.digits = hval (getLower (pad y n) m).digits
                  + 16 ^ m * hval (getHigher (pad y n) m).digits := by
                rw [hl2d, hh2d, ← hyph]
                conv_lhs => rw [← List.take_append_drop m (pad y n).digits]
                rw [hval_append, List.length_take, hypl, Nat.min_eq_left (by omega)]
              obtain ⟨r0, c0, hk0, hv0, hcan0, hlo0, hs0, hok0⟩ :=
                ih (getLower (pad x n) m) (getLower (pad y n) m) c hl1v hl2v
                  (by rw [hl1len]; omega) (by rw [hl1len]; omega)
                  (by rw [hl2len]; omega) (by rw [hl2len]; omega)
                  hc (by rw [hl1len, hl2len, max_self]; omega)
              obtain ⟨r2, c2, hk2, hv2, hcan2, hlo2, hs2, hok2⟩ :=
                ih (getHigher (pad x n) m) (getHigher (pad y n) m) c0 hh1v hh2v
                  (by rw [hh1len]; omega) (by rw [hh1len]; omega)
                  (by rw [hh2len]; omega) (by rw [hh2len]; omega)
                  hok0 (by rw [hh1len, hh2len, max_self]; omega)
              have hr0neg : r0.neg = false := hs0 hl1n hl2n
              have hr2neg : r2.neg = false := hs2 hh1n hh2n
              obtain ⟨hs1neg, hs1val, hs1can, hs1low⟩ :=
                add_nonneg_spec (getLower (pad x n) m) (getHigher (pad x n) m)
                  (by rw [hl1len]; omega) (by rw [hh1len]; omega) hl1n hh1n
              obtain ⟨hs2neg, hs2val, hs2can, hs2low⟩ :=
                add_nonneg_spec (getLower (pad y n) m) (getHigher (pad y n) m)
                  (by rw [hl2len]; omega) (by rw [hh2len]; omega) hl2n hh2n
              have hpow16 : 16 ^ m ≤ 16 ^ (n - m) := Nat.pow_le_pow_right (by norm_num) hmnm
              have h16nm : (16 : Nat) ^ (n - m + 1) = 16 * 16 ^ (n - m) := by ring
              have hs1bound : hval (add (getLower (pad x n) m)
                  (getHigher (pad x n) m)).digits < 16 ^ (n - m + 1) := by
                rw [hs1val]
                omega
              have hs2bound : hval (add (getLower (pad y n) m)
                  (getHigher (pad y n) m)).digits < 16 ^ (n - m + 1) := by
                rw [hs2val]
                omega
              have hs1len : (add (getLower (pad x n) m)
                  (getHigher (pad x n) m)).digits.length ≤ n - m + 1 :=
                canon_length_le _ (validHex_of_lowHex _ hs1low) hs1can _ (by omega) hs1bound
              have hs2len : (add (getLower (pad y n) m)
                  (getHigher (pad y n) m)).digits.length ≤ n - m + 1 :=
                canon_length_le _ (validHex_of_lowHex _ hs2low) hs2can _ (by omega) hs2bound
              have hs1pos : 1 ≤ (add (getLower (pad x n) m)
                  (getHigher (pad x n) m)).digits.length :=
                List.length_pos.mpr (canon_ne_nil _ hs1can)
              have hs2pos : 1 ≤ (add (getLower (pad y n) m)
                  (getHigher (pad y n) m)).digits.length :=
                List.length_pos.mpr (canon_ne_nil _ hs2can)
              obtain ⟨r1, c1, hk1, hv1, hcan1, hlo1, hs1s, hok1⟩ :=
                ih (add (getLower (pad x n) m) (getHigher (pad x n) m))
                  (add (getLower (pad y n) m) (getHigher (pad y n) m)) c2
                  (validHex_of_lowHex _ hs1low) (validHex_of_lowHex _ hs2low)
                  hs1pos (by omega) hs2pos (by omega)
                  hok2 (by apply max_lt <;> omega)
              have hr1neg : r1.neg = false := hs1s hs1neg hs2neg
              have hr0len : r0.digits.length ≤ 2 * m := by
                apply canon_length_le _ (validHex_of_lowHex _ hlo0) hcan0 _ (by omega)
                rw [hv0, two_mul, pow_add]
                exact Nat.mul_lt_mul'' hL1 hL2
              have hr2len : r2.digits.length ≤ 2 * (n - m) := by
                apply canon_length_le _ (validHex_of_lowHex _ hlo2) hcan2 _ (by omega)
                rw [hv2, two_mul, pow_add]
                exact Nat.mul_lt_mul'' hH1 hH2
              have hr1len : r1.digits.length ≤ 2 * (n - m + 1) := by
                apply canon_length_le _ (validHex_of_lowHex _ hlo1) hcan1 _ (by omega)
                rw [hv1, two_mul, pow_add]
                exact Nat.mul_lt_mul'' hs1bound hs2bound
              have hge1 : hval r2.digits ≤ hval r1.digits := by
                rw [hv2, hv1, hs1val, hs2val]
                exact Nat.mul_le_mul (Nat.le_add_left _ _) (Nat.le_add_left _ _)
              obtain ⟨hsaneg, hsaval, hsacan, hsalow⟩ :=
                sub_nonneg_spec r1 r2 (by omega) (by omega) hr1neg hr2neg hge1
              have hexp : (hval (getLower (pad x n) m).digits
                    + hval (getHigher (pad x n) m).digits)
                  * (hval (getLower (pad y n) m).digits
                    + hval (getHigher (pad y n) m).digits)
                  = hval (getLower (pad x n) m).digits * hval (getLower (pad y n) m).digits
                  + hval (getLower (pad x n) m).digits * hval (getHigher (pad y n) m).digits
                  + hval (getHigher (pad x n) m).digits * hval (getLower (pad y n) m).digits
                  + hval (getHigher (pad x n) m).digits * hval (getHigher (pad y n) m).digits := by
                ring
              have hge0 : hval r0.digits ≤ hval (sub r1 r2).digits := by
                rw [hsaval, hv0, hv1, hv2, hs1val, hs2val]
                omega
              have hsalen : (sub r1 r2).digits.length ≤ 2 * (n - m + 1) := by
                apply canon_length_le _ (validHex_of_lowHex _ hsalow) hsacan _ (by omega)
                rw [hsaval]
                have := hval_lt r1.digits
                have h2 : 16 ^ r1.digits.length ≤ 16 ^ (2 * (n - m + 1)) :=
                  Nat.pow_le_pow_right (by norm_num) hr1len
                omega
              obtain ⟨hsbneg, hsbval, hsbcan, hsblow⟩ :=
                sub_nonneg_spec (sub r1 r2) r0 (by omega) (by omega) hsaneg hr0neg hge0
              have hz1v : hval (sub (sub r1 r2) r0).digits
                  = hval (getLower (pad x n) m).digits * hval (getHigher (pad y n) m).digits
                  + hval (getHigher (pad x n) m).digits * hval (getLower (pad y n) m).digits := by
                rw [hsbval, hsaval, hv0, hv1, hv2, hs1val, hs2val]
                omega
              have hz1bound : hval (sub (sub r1 r2) r0).digits < 16 ^ (n + 1) := by
                rw [hz1v]
                have e1 : hval (getLower (pad x n) m).digits
                    * hval (getHigher (pad y n) m).digits < 16 ^ n := by
                  have := Nat.mul_lt_mul'' hL1 hH2
                  rw [← pow_add] at this
                  have he : m + (n - m) = n := by omega
                  rw [he] at this
                  exact this
                have e2 : hval (getHigher (pad x n) m).digits
                    * hval (getLower (pad y n) m).digits < 16 ^ n := by
                  have := Nat.mul_lt_mul'' hH1 hL2
                  rw [← pow_add] at this
                  have he : (n - m) + m = n := by omega
                  rw [he] at this
                  exact this
                have e3 : (16 : Nat) ^ (n + 1) = 16 * 16 ^ n := by ring
                omega
              have hz1len : (sub (sub r1 r2) r0).digits.length ≤ n + 1 :=
                canon_length_le _ (validHex_of_lowHex _ hsblow) hsbcan _ (by omega) hz1bound
              have hp1 : shiftLeft r2 (2 * m)
                  = .ok { r2 with digits := List.replicate (2 * m) '0' ++ r2.digits } :=
                shiftLeft_spec r2 (2 * m) (by omega)
              have hp2 : shiftLeft (sub (sub r1 r2) r0) m
                  = .ok { sub (sub r1 r2) r0 with
                      digits := List.replicate m '0' ++ (sub (sub r1 r2) r0).digits } :=
                shiftLeft_spec _ m (by omega)
              simp only [hk0, bindOk, hk2, hk1, hp1, hp2]
              obtain ⟨hfaneg, hfaval, hfacan, hfalow⟩ :=
                add_nonneg_spec { r2 with digits := List.replicate (2 * m) '0' ++ r2.digits }
                  { sub (sub r1 r2) r0 with
                      digits := List.replicate m '0' ++ (sub (sub r1 r2) r0).digits }
                  (by simp only [List.length_append, List.length_replicate]; omega)
                  (by simp only [List.length_append, List.length_replicate]; omega)
                  hr2neg hsbneg
              have hfinid : hval (add { r2 with digits := List.replicate (2 * m) '0' ++ r2.digits }
                    { sub (sub r1 r2) r0 with
                        digits := List.replicate m '0' ++ (sub (sub r1 r2) r0).digits }).digits
                  + hval r0.digits = hval x.digits * hval y.digits := by
                rw [hfaval]
                simp only [hval_shift]
                rw [hz1v, hv2, hv0, hdecx, hdecy]
                have e : (16 : Nat) ^ (2 * m) = 16 ^ m * 16 ^ m := by
                  rw [two_mul, pow_add]
                rw [e]
                ring
              have hPbound : hval x.digits * hval y.digits < 16 ^ (2 * n) := by
                have h1 : hval x.digits * hval y.digits
                    < 16 ^ (x.digits.length + y.digits.length) := by
                  rw [pow_add]
                  exact Nat.mul_lt_mul'' (hval_lt _) (hval_lt _)
                have h2 : (16 : Nat) ^ (x.digits.length + y.digits.length) ≤ 16 ^ (2 * n) :=
                  Nat.pow_le_pow_right (by norm_num) (by omega)
                omega
              have hfabound : hval (add { r2 with digits := List.replicate (2 * m) '0' ++ r2.digits }
                    { sub (sub r1 r2) r0 with
                        digits := List.replicate m '0' ++ (sub (sub r1 r2) r0).digits }).digits
                  < 16 ^ (2 * n) := by omega
              have hfalen : (add { r2 with digits := List.replicate (2 * m) '0' ++ r2.digits }
                    { sub (sub r1 r2) r0 with
                        digits := List.replicate m '0' ++ (sub (sub r1 r2) r0).digits }).digits.length
                  ≤ 2 * n :=
                canon_length_le _ (validHex_of_lowHex _ hfalow) hfacan _ (by omega) hfabound
              obtain ⟨hfbneg, hfbval, hfbcan, hfblow⟩ :=
                add_nonneg_spec
                  (add { r2 with digits := List.replicate (2 * m) '0' ++ r2.digits }
                    { sub (sub r1 r2) r0 with
                        digits := List.replicate m '0' ++ (sub (sub r1 r2) r0).digits })
                  r0 (by omega) (by omega) hfaneg hr0neg
              have hfbv : hval (add
                    (add { r2 with digits := List.replicate (2 * m) '0' ++ r2.digits }
                      { sub (sub r1 r2) r0 with
                          digits := List.replicate m '0' ++ (sub (sub r1 r2) r0).digits })
                    r0).digits = hval x.digits * hval y.digits := by
                rw [hfbval]
                omega
              have hfbbound : hval (add
                    (add { r2 with digits := List.replicate (2 * m) '0' ++ r2.digits }
                      { sub (sub r1 r2) r0 with
                          digits := List.replicate m '0' ++ (sub (sub r1 r2) r0).digits })
                    r0).digits < 16 ^ (2 * n) := by
                rw [hfbv]
                exact hPbound
              have hfblen : (add
                    (add { r2 with digits := List.replicate (2 * m) '0' ++ r2.digits }
                      { sub (sub r1 r2) r0 with
                          digits := List.replicate m '0' ++ (sub (sub r1 r2) r0).digits })
                    r0).digits.length ≤ 2 * n :=
                canon_length_le _ (validHex_of_lowHex _ hfblow) hfbcan _ (by omega) hfbbound
              have hRdigits := canon_trimHigh_eq _ hfbcan
              refine ⟨_, _, rfl, ?_, ?_, ?_, ?_, ?_⟩
              · simp only [hRdigits]
                exact hfbv
              · exact trimHigh_canon _
              · exact lowHex_trimHigh _ hfblow
              · intro _ _
                exact hfbneg
              · apply cacheOK_record c1 x y
                  ⟨(add
                    (add { r2 with digits := List.replicate (2 * m) '0' ++ r2.digits }
                      { sub (sub r1 r2) r0 with
                          digits := List.replicate m '0' ++ (sub (sub r1 r2) r0).digits })
                    r0).neg,
                    trimHigh (add
                    (add { r2 with digits := List.replicate (2 * m) '0' ++ r2.digits }
                      { sub (sub r1 r2) r0 with
                          digits := List.replicate m '0' ++ (sub (sub r1 r2) r0).digits })
                    r0).digits⟩ hvx hvy hlx64 hly64
                  (validHex_of_lowHex _ (lowHex_trimHigh _ hfblow))
                  (by simp only [trimHigh_idem, hRdigits]; exact le_trans hfblen (by omega))
                  (by simp only [hRdigits]; exact hfbv)
                  (lowHex_trimHigh _ hfblow)
                  (fun _ _ => hfbneg) hok1

end BI

namespace BI

theorem karat_ok (f : Nat) : ∀ x y : HexInt, ∀ c : Cache,
    ValidHex x.digits = true → ValidHex y.digits = true →
    1 ≤ x.digits.length → x.digits.length ≤ 32 →
    1 ≤ y.digits.length → y.digits.length ≤ 32 →
    CacheOK c → max x.digits.length y.digits.length < f →
    ∃ r c2, karatF f c x y = .ok (r, c2) ∧
      hval r.digits = hval x.digits * hval y.digits ∧
      CanonHex r.digits = true ∧ LowHex r.digits = true ∧
      (x.neg = false → y.neg = false → r.neg = false) ∧ CacheOK c2 := by
  induction f with
  | zero =>
      intro x y c _ _ _ _ _ _ _ hf
      exact absurd hf (by omega)
  | succ f ih => exact karat_good_succ f ih

theorem mulOp_agree (c : Cache) (x y : HexInt)
    (hvx : ValidHex x.digits = true) (hvy : ValidHex y.digits = true)
    (h1x : 1 ≤ x.digits.length) (h2x : x.digits.length ≤ 32)
    (h1y : 1 ≤ y.digits.length) (h2y : y.digits.length ≤ 32)
    (hc : CacheOK c) :
    ∃ r rn c2, mulOp c x y = .ok (r, c2) ∧ multiplyNaive x y = .ok rn ∧
      r.digits = rn.digits ∧ r.neg = (x.neg != y.neg) ∧
      hval r.digits = hval x.digits * hval y.digits ∧ CacheOK c2 := by
  obtain ⟨rn, hmn, hneg, hvr, hcr, hlr⟩ := multiplyNaive_spec x y (by omega)
  unfold mulOp
  by_cases hb : x.digits.length + y.digits.length > 8
  · rw [if_pos hb]
    obtain ⟨r, c2, hk, hv, hcan, hlow, hsign, hok⟩ :=
      karat_ok (max x.digits.length y.digits.length + 1) x y c hvx hvy
        h1x h2x h1y h2y hc (by omega)
    simp only [hk, bindOk]
    refine ⟨_, rn, c2, rfl, hmn, ?_, rfl, hv, hok⟩
    exact canon_low_inj r.digits rn.digits hcan hlow hcr hlr (hv.trans hvr.symm)
  · rw [if_neg hb]
    simp only [hmn, bindOk]
    exact ⟨_, rn, c, rfl, rfl, rfl, rfl, hvr, hc⟩

end BI

theorem subSlots_length (xs : List Char) : ∀ ys b, (subSlots xs ys b).length = xs.length := by
  induction xs with
  | nil => intro ys b; rfl
  | cons x xs ih =>
      intro ys b
      simp only [subSlots]
      split <;> simp [ih]

theorem wf_pos (l : List Char) (hv : ValidHex l = true) (hc : CanonHex l = true)
    (hne : l ≠ ['0']) : 0 < hval l := by
  rcases canon_cases l hc with h1 | ⟨hnil, t, c, hl, hcne⟩
  · exact absurd h1 hne
  · subst hl
    cases t with
    | nil =>
        simp only [List.nil_append] at hv ⊢
        have hcv : isHexDigit c = true := by
          simp only [ValidHex, List.all_cons, List.all_nil, Bool.and_true] at hv
          exact hv
        have := hexNat_pos c hcv hcne
        simp only [hval]
        omega
    | cons t0 ts =>
        have h2 : 2 ≤ (t0 :: ts ++ [c]).length := by simp
        have := canon_hval_lower _ hv hc h2
        have h16 : 1 ≤ 16 ^ ((t0 :: ts ++ [c]).length - 1) := Nat.one_le_pow _ _ (by norm_num)
        omega

theorem canon_cmp (p q : List Char) (hvp : ValidHex p = true) (hcp : CanonHex p = true)
    (hvq : ValidHex q = true) (hcq : CanonHex q = true) :
    (if p.length ≠ q.length then (if p.length > q.length then (1 : Int) else -1)
     else cmpDigs p.reverse q.reverse) = intCmpI (hval p) (hval q) := by
  by_cases hlen : p.length = q.length
  · rw [if_neg (by omega)]
    rw [cmpDigs_val _ _ (by simp [hlen]), mval_reverse, mval_reverse]
  · rw [if_pos hlen]
    have hp1 : 1 ≤ p.length := List.length_pos.mpr (canon_ne_nil _ hcp)
    have hq1 : 1 ≤ q.length := List.length_pos.mpr (canon_ne_nil _ hcq)
    by_cases hgt : p.length > q.length
    · rw [if_pos hgt]
      have hlow : 16 ^ (p.length - 1) ≤ hval p :=
        canon_hval_lower _ hvp hcp (by omega)
      have hup : hval q < 16 ^ q.length := hval_lt q
      have hpow : (16 : Nat) ^ q.length ≤ 16 ^ (p.length - 1) :=
        Nat.pow_le_pow_right (by norm_num) (by omega)
      rw [intCmpI_of_gt]
      exact_mod_cast by omega
    · rw [if_neg hgt]
      have hlow : 16 ^ (q.length - 1) ≤ hval q :=
        canon_hval_lower _ hvq hcq (by omega)
      have hup : hval p < 16 ^ p.length := hval_lt p
      have hpow : (16 : Nat) ^ p.length ≤ 16 ^ (q.length - 1) :=
        Nat.pow_le_pow_right (by norm_num) (by omega)
      rw [intCmpI_of_lt]
      exact_mod_cast by omega

theorem canon_cmp_mul (p q : List Char) (hvp : ValidHex p = true) (hcp : CanonHex p = true)
    (hvq : ValidHex q = true) (hcq : CanonHex q = true) (k : Int) :
    (if p.length ≠ q.length then (if p.length > q.length then (1 : Int) else -1) * k
     else cmpDigs p.reverse q.reverse * k) = intCmpI (hval p) (hval q) * k := by
  have h := canon_cmp p q hvp hcp hvq hcq
  by_cases hlen : p.length = q.length
  · rw [if_neg (by omega)] at h ⊢
    rw [h]
  · rw [if_pos hlen] at h ⊢
    rw [h]

theorem intCmpI_neg (u v : Int) : intCmpI u v * (-1) = intCmpI (-u) (-v) := by
  unfold intCmpI
  split_ifs <;> omega

theorem v1_compare_correct (a b : HexInt) (ha : WfHexS a = true) (hb : WfHexS b = true) :
    V1.compare a b = intCmpI (ivalHex a) (ivalHex b) := by
  simp only [WfHexS, WfHex, Bool.and_eq_true, Bool.not_eq_true', Bool.and_eq_false_iff,
    beq_eq_false_iff_ne] at ha hb
  obtain ⟨⟨hva, hca⟩, hza⟩ := ha
  obtain ⟨⟨hvb, hcb⟩, hzb⟩ := hb
  unfold V1.compare
  cases hna : a.neg with
  | true =>
      cases hnb : b.neg with
      | true =>
          simp only [hna, hnb, Bool.not_true, Bool.and_false, Bool.false_and,
            Bool.false_eq_true, if_false, eq_self_iff_true, if_true]
          rw [canon_cmp_mul a.digits b.digits hva hca hvb hcb (-1), intCmpI_neg]
          unfold ivalHex
          rw [hna, hnb]
          simp only [eq_self_iff_true, if_true]
      | false =>
          have hapos : 0 < hval a.digits := by
            apply wf_pos a.digits hva hca
            rcases hza with h | h
            · rw [hna] at h; simp at h
            · exact h
          have h1 : ivalHex a < ivalHex b := by
            unfold ivalHex
            rw [hna, hnb]
            simp only [eq_self_iff_true, if_true, Bool.false_eq_true, if_false]
            omega
          rw [intCmpI_of_lt _ _ h1]
          simp only [hna, hnb, Bool.not_false, Bool.and_true, eq_self_iff_true, if_true]
  | false =>
      cases hnb : b.neg with
      | true =>
          have hbpos : 0 < hval b.digits := by
            apply wf_pos b.digits hvb hcb
            rcases hzb with h | h
            · rw [hnb] at h; simp at h
            · exact h
          have h1 : ivalHex b < ivalHex a := by
            unfold ivalHex
            rw [hna, hnb]
            simp only [eq_self_iff_true, if_true, Bool.false_eq_true, if_false]
            omega
          rw [intCmpI_of_gt _ _ h1]
          simp only [hna, hnb, Bool.false_and, Bool.false_eq_true, if_false,
            Bool.not_false, Bool.true_and, eq_self_iff_true, if_true]
      | false =>
          simp only [hna, hnb, Bool.not_false, Bool.false_and, Bool.and_false,
            Bool.false_eq_true, if_false]
          rw [canon_cmp_mul a.digits b.digits hva hca hvb hcb 1]
          unfold ivalHex
          rw [hna, hnb]
          simp only [Bool.false_eq_true, if_false]
          ring

theorem validHex_eq_zeroChar (c : Char) (hc : isHexDigit c = true) (h : hexNat c = 0) :
    c = '0' := by
  by_contra hne
  have := hexNat_pos c hc hne
  omega

theorem validHex_eq_oneChar (c : Char) (hc : isHexDigit c = true) (h : hexNat c = 1) :
    c = '1' := by
  have e0 : '0'.toNat = 48 := rfl
  have e1 : 'a'.toNat = 97 := rfl
  have e2 : 'A'.toNat = 65 := rfl
  have e3 : '1'.toNat = 49 := rfl
  simp only [isHexDigit, Bool.or_eq_true, Bool.and_eq_true, decide_eq_true_eq] at hc
  unfold hexNat at h
  split at h
  · next h2 =>
      have h3 : 48 ≤ c.toNat := h2.1
      exact toNat_inj_char c '1' (by omega)
  · next hn1 =>
      split at h
      · next h2 =>
          have h3 : 97 ≤ c.toNat := h2.1
          omega
      · next hn2 =>
          split at h
          · next h2 =>
              have h3 : 65 ≤ c.toNat := h2.1
              omega
          · next hn3 =>
              exfalso
              cases hc with
              | inl h2 =>
                  cases h2 with
                  | inl h4 => exact hn1 h4
                  | inr h4 => exact hn2 h4
              | inr h4 => exact hn3 h4

theorem validHex_all_zero_of_hval_zero : ∀ l : List Char, ValidHex l = true →
    hval l = 0 → l.all (fun c => c == '0') = true := by
  intro l
  induction l with
  | nil => intro _ _; rfl
  | cons c t ih =>
      intro hv h
      simp only [ValidHex, List.all_cons, Bool.and_eq_true] at hv
      simp only [hval] at h
      simp only [List.all_cons, Bool.and_eq_true, beq_iff_eq]
      refine ⟨validHex_eq_zeroChar c hv.1 (by omega), ?_⟩
      exact ih hv.2 (by omega)

theorem allzero_hval (l : List Char) (h : l.all (fun c => c == '0') = true) :
    hval l = 0 := by
  apply hval_all_zero
  intro c hc
  have := List.all_eq_true.mp h c hc
  simpa using this

theorem hval_parity (c : Char) (t : List Char) :
    hval (c :: t) % 2 = hexNat c % 2 := by
  simp only [hval]
  omega

namespace BI

theorem isZero_of_hval_zero (v : HexInt) (hv : ValidHex v.digits = true)
    (h : hval v.digits = 0) : isZero v = true :=
  validHex_all_zero_of_hval_zero v.digits hv h

theorem isZero_false_of_hval_pos (v : HexInt) (h : 0 < hval v.digits) :
    isZero v = false := by
  cases hz : isZero v with
  | false => rfl
  | true =>
      have := allzero_hval v.digits hz
      omega

theorem isOne_hval (v : HexInt) (h : isOne v = true) : hval v.digits = 1 := by
  unfold isOne at h
  cases hd : v.digits with
  | nil => rw [hd] at h; exact absurd h (by simp)
  | cons c rest =>
      rw [hd] at h
      simp only [Bool.and_eq_true, beq_iff_eq] at h
      rw [h.1]
      have : hval rest = 0 := allzero_hval rest h.2
      simp only [hval, this]
      rfl

theorem isOne_of_hval_one (v : HexInt) (hv : ValidHex v.digits = true)
    (h : hval v.digits = 1) : isOne v = true := by
  unfold isOne
  cases hd : v.digits with
  | nil => rw [hd] at h; simp [hval] at h
  | cons c rest =>
      rw [hd] at h hv
      simp only [ValidHex, List.all_cons, Bool.and_eq_true] at hv
      simp only [hval] at h
      have hlt := hexNat_lt c
      have hr : hval rest = 0 := by omega
      have hc1 : hexNat c = 1 := by omega
      simp only [Bool.and_eq_true, beq_iff_eq]
      exact ⟨validHex_eq_oneChar c hv.1 hc1,
        validHex_all_zero_of_hval_zero rest hv.2 hr⟩

theorem isOne_false_of_hval_ne (v : HexInt) (h : hval v.digits ≠ 1) :
    isOne v = false := by
  cases hz : isOne v with
  | false => rfl
  | true => exact absurd (isOne_hval v hz) h

end BI

theorem dropWhile_head_false (p : Char → Bool) :
    ∀ (l : List Char) (c : Char) (cs : List Char), l.dropWhile p = c :: cs →
    p c = false := by
  intro l
  induction l with
  | nil => intro c cs h; simp at h
  | cons a t ih =>
      intro c cs h
      by_cases hp : p a = true
      · rw [List.dropWhile_cons_of_pos hp] at h
        exact ih c cs h
      · rw [List.dropWhile_cons_of_neg hp] at h
        obtain ⟨h1, _⟩ := List.cons_eq_cons.mp h
        cases hpa : p a with
        | false => rw [← h1]; exact hpa
        | true => exact absurd hpa hp

namespace V1

theorem stripZeros_of_dropWhile_ne (l : List Char)
    (h : l.dropWhile (fun c => c == '0') ≠ []) :
    stripZeros l = l.dropWhile (fun c => c == '0') := by
  induction l with
  | nil => simp at h
  | cons c t ih =>
      by_cases hc : c = '0'
      · subst hc
        rw [List.dropWhile_cons_of_pos (by simp)] at h ⊢
        cases t with
        | nil => simp at h
        | cons t0 ts =>
            rw [show stripZeros ('0' :: t0 :: ts) = stripZeros (t0 :: ts) from by
              simp only [stripZeros]; rw [if_pos (by decide : (('0' == '0') = true))]]
            exact ih h
      · rw [List.dropWhile_cons_of_neg (by simp [hc])]
        cases t with
        | nil => rfl
        | cons t0 ts =>
            simp only [stripZeros]
            rw [if_neg (by simp [hc])]

theorem stripZeros_all_zero (l : List Char) (hne : l ≠ [])
    (h : l.dropWhile (fun c => c == '0') = []) :
    stripZeros l = ['0'] := by
  induction l with
  | nil => exact absurd rfl hne
  | cons c t ih =>
      have hc : c = '0' := by
        by_contra hcc
        rw [List.dropWhile_cons_of_neg (by simp [hcc])] at h
        simp at h
      subst hc
      rw [List.dropWhile_cons_of_pos (by simp)] at h
      cases t with
      | nil => rfl
      | cons t0 ts =>
          rw [show stripZeros ('0' :: t0 :: ts) = stripZeros (t0 :: ts) from by
            simp only [stripZeros]; rw [if_pos (by decide : (('0' == '0') = true))]]
          exact ih (by simp) h

end V1

theorem dval_append (a b : List Nat) : dval (a ++ b) = dval a + 10 ^ a.length * dval b := by
  induction a with
  | nil => simp [dval]
  | cons x t ih =>
      simp only [List.cons_append, List.append_eq, dval, List.length_cons]
      rw [ih, pow_succ]
      ring

theorem dval_replicate_zero (n : Nat) : dval (List.replicate n 0) = 0 := by
  induction n with
  | zero => rfl
  | succ n ih => simp [List.replicate_succ, dval, ih]

theorem dval_lt : ∀ l : List Nat, ValidDec l = true → dval l < 10 ^ l.length := by
  intro l
  induction l with
  | nil =>
      intro _
      simp [dval]
  | cons d t ih =>
      intro hv
      simp only [ValidDec, List.all_cons, Bool.and_eq_true, decide_eq_true_eq] at hv
      have h2 := ih hv.2
      simp only [dval, List.length_cons, pow_succ]
      have hd := hv.1
      omega

theorem dval_take_cons (ys : List Nat) (n : Nat) :
    dval (ys.take (n + 1)) = ys.headD 0 + 10 * dval (ys.tail.take n) := by
  cases ys with
  | nil => simp [dval]
  | cons y yt => simp [dval]

theorem slotsD_length (n : Nat) (l : List Nat) (h : l.length ≤ n) :
    (slotsD n l).length = n := by
  simp only [slotsD, List.length_append, List.length_take, List.length_replicate]
  omega

theorem dval_slotsD (n : Nat) (l : List Nat) (h : l.length ≤ n) :
    dval (slotsD n l) = dval l := by
  unfold slotsD
  rw [List.take_of_length_le h, dval_append, dval_replicate_zero]
  ring

theorem validDec_slotsD (n : Nat) (l : List Nat) (hv : ValidDec l = true) :
    ValidDec (slotsD n l) = true := by
  simp only [slotsD, ValidDec, List.all_append, Bool.and_eq_true]
  constructor
  · simp only [ValidDec, List.all_eq_true] at hv ⊢
    intro d hd
    exact hv d (List.mem_of_mem_take hd)
  · simp only [List.all_eq_true]
    intro d hd
    have := List.eq_of_mem_replicate hd
    simp [this]

theorem addSlotsD_cons (x : Nat) (xs ys : List Nat) (c : Nat) :
    addSlotsD (x :: xs) ys c =
      ((x + ys.headD 0 + c) % 10 ::
        (addSlotsD xs ys.tail ((x + ys.headD 0 + c) / 10)).1,
       (addSlotsD xs ys.tail ((x + ys.headD 0 + c) / 10)).2) := rfl

theorem addSlotsD_spec (xs : List Nat) : ∀ ys c, c ≤ 1 →
    ValidDec xs = true → ValidDec ys = true →
    (addSlotsD xs ys c).1.length = xs.length ∧
    (addSlotsD xs ys c).2 ≤ 1 ∧
    dval (addSlotsD xs ys c).1 + 10 ^ xs.length * (addSlotsD xs ys c).2 =
      dval xs + dval (ys.take xs.length) + c := by
  induction xs with
  | nil =>
      intro ys c hc _ _
      refine ⟨rfl, hc, ?_⟩
      simp [addSlotsD, dval]
  | cons x t ih =>
      intro ys c hc hvx hvy
      simp only [ValidDec, List.all_cons, Bool.and_eq_true, decide_eq_true_eq] at hvx
      have hyhead : ys.headD 0 ≤ 9 := by
        cases ys with
        | nil => simp
        | cons y yt =>
            simp only [ValidDec, List.all_cons, Bool.and_eq_true, decide_eq_true_eq] at hvy
            simp only [List.headD_cons]
            omega
      have hytail : ValidDec ys.tail = true := by
        cases ys with
        | nil => rfl
        | cons y yt =>
            simp only [ValidDec, List.all_cons, Bool.and_eq_true] at hvy ⊢
            exact hvy.2
      have hx9 := hvx.1
      have hcar : (x + ys.headD 0 + c) / 10 ≤ 1 := by omega
      obtain ⟨ihl, ihc, ihv⟩ := ih ys.tail ((x + ys.headD 0 + c) / 10) hcar hvx.2 hytail
      rw [addSlotsD_cons]
      refine ⟨by simp only [List.length_cons]; rw [ihl], ihc, ?_⟩
      simp only [dval, List.length_cons]
      rw [dval_take_cons ys t.length]
      rw [show (10 : Nat) ^ (t.length + 1) = 10 * 10 ^ t.length from by ring, mul_assoc]
      omega

namespace V1

theorem valid_ne_nil (s : List Char) (h : isValidInput s = true) : s ≠ [] := by
  intro he
  subst he
  simp [isValidInput] at h

theorem valid_tail_ne (s : List Char) (h : isValidInput s = true)
    (hd : (s.headD ' ' == '-') = true) : s.tail ≠ [] := by
  cases s with
  | nil => simp [isValidInput] at h
  | cons c cs =>
      simp only [List.headD_cons, beq_iff_eq] at hd
      subst hd
      simp only [isValidInput] at h
      split at h
      · exact absurd h (by simp)
      · simp only [Bool.and_eq_true, Bool.not_eq_true', List.isEmpty_eq_false] at h
        simpa using h.1

end V1

theorem v1_roundtrip_core (R : List Char) (nb : Bool) (v : HexInt) (hrne : R ≠ [])
    (h : (if (V1.stripZeros R).length > V1.HEX_SIZE then
            (Except.error Err.overflow : Except Err HexInt)
          else if (V1.stripZeros R == ['0']) = true then
            Except.ok { neg := false, digits := ['0'] }
          else Except.ok { neg := nb, digits := (V1.stripZeros R).reverse }) = .ok v) :
    V1.toStr v = (if (R.dropWhile (fun c => c == '0')).isEmpty = true then ['0']
      else (if nb = true then ['-'] else []) ++ R.dropWhile (fun c => c == '0')) := by
  split at h
  · exact absurd h (by simp)
  · split at h
    · next hz =>
        have hv2 : v = { neg := false, digits := ['0'] } := (Except.ok.inj h).symm
        subst hv2
        have hdw : R.dropWhile (fun c => c == '0') = [] := by
          by_contra hne
          have h2 := V1.stripZeros_of_dropWhile_ne _ hne
          rw [h2] at hz
          have hz2 := eq_of_beq hz
          have hh := dropWhile_head_false (fun c => c == '0') R '0'
            [] hz2
          simp at hh
        rw [hdw]
        simp only [List.isEmpty_nil, eq_self_iff_true, if_true]
        decide
    · next hz =>
        have hv2 : v = { neg := nb, digits := (V1.stripZeros R).reverse } :=
          (Except.ok.inj h).symm
        subst hv2
        have hdwne : R.dropWhile (fun c => c == '0') ≠ [] := by
          intro hdw
          have h2 := V1.stripZeros_all_zero _ hrne hdw
          rw [h2] at hz
          simp at hz
        have hst : V1.stripZeros R = R.dropWhile (fun c => c == '0') :=
          V1.stripZeros_of_dropWhile_ne _ hdwne
        obtain ⟨c0, cs, hcc⟩ : ∃ c0 cs,
            R.dropWhile (fun c => c == '0') = c0 :: cs := by
          cases hdd : R.dropWhile (fun c => c == '0') with
          | nil => exact absurd hdd hdwne
          | cons c0 cs => exact ⟨c0, cs, rfl⟩
        have hc0 : c0 ≠ '0' := by
          have h3 := dropWhile_head_false (fun c => c == '0') R c0 cs hcc
          simpa using h3
        have hcanon : trimHigh ((R.dropWhile (fun c => c == '0')).reverse)
            = (R.dropWhile (fun c => c == '0')).reverse := by
          apply canon_trimHigh_eq
          rw [hcc]
          simp only [List.reverse_cons]
          exact canon_of_last_ne _ _ hc0
        have hrev : (V1.stripZeros R).reverse ≠ ['0'] := by
          rw [hst, hcc]
          intro he
          have h4 : c0 :: cs = ['0'] := by
            have h5 := congrArg List.reverse he
            simpa using h5
          exact hc0 (List.cons_eq_cons.mp h4).1
        have hnz : V1.isZero { neg := nb, digits := (V1.stripZeros R).reverse } = false := by
          simp only [V1.isZero, beq_eq_false_iff_ne]
          exact hrev
        have hcond : ¬((R.dropWhile (fun c => c == '0')).isEmpty = true) := by
          simp only [List.isEmpty_eq_true]
          exact hdwne
        rw [if_neg hcond]
        unfold V1.toStr
        rw [hnz]
        simp only [Bool.not_false, Bool.and_true]
        rw [hst, hcanon, List.reverse_reverse]


/-! The ten claims. -/

/-- Claim C1: the division identity a = q * b + r with 0 ≤ |r| < |b| fails
on the BigInt.cpp divide stub: dividing 2 by 1 yields quotient 0 and
remainder 0, so q * b + r ≠ a.  (Code bug: the long-division body of
BigHexInt::divide in BigInt.cpp is missing; the fallthrough returns the
zero-initialized quotient and leaves the remainder untouched.) -/
theorem claim_C1 :
    ∃ q r, BI.divideStub (BI.ofLit ['2']) (BI.ofLit ['1']) { neg := false, digits := ['0'] }
        = .ok (q, r) ∧
      ivalHex q * ivalHex (BI.ofLit ['1']) + ivalHex r ≠ ivalHex (BI.ofLit ['2']) := by
  refine ⟨_, _, rfl, ?_⟩
  decide

/-- Claim C2 (amended): over valid hex operands of significant length 1 to
32 and a consistent memoization map, the BigInt.cpp multiply operator
succeeds, agrees with the naive quadratic multiplication in digits, sets
the XOR sign, and computes the product of the magnitudes; the map stays
consistent.  (The original claim, exact agreement of the karatsuba routine
itself with the naive routine on every input, is refuted by the sign
counterexample.) -/
theorem claim_C2 (c : Cache) (x y : HexInt)
    (hvx : ValidHex x.digits = true) (hvy : ValidHex y.digits = true)
    (h1x : 1 ≤ x.digits.length) (h2x : x.digits.length ≤ 32)
    (h1y : 1 ≤ y.digits.length) (h2y : y.digits.length ≤ 32)
    (hc : BI.CacheOK c) :
    ∃ r rn c2, BI.mulOp c x y = .ok (r, c2) ∧ BI.multiplyNaive x y = .ok rn ∧
      r.digits = rn.digits ∧ r.neg = (x.neg != y.neg) ∧
      hval r.digits = hval x.digits * hval y.digits ∧ BI.CacheOK c2 :=
  BI.mulOp_agree c x y hvx hvy h1x h2x h1y h2y hc

theorem claim_C2_witness :
    ∃ r rn c2, BI.mulOp [] ⟨false, ['f', 'f']⟩ ⟨true, ['3', '2', '1']⟩ = .ok (r, c2) ∧
      BI.multiplyNaive ⟨false, ['f', 'f']⟩ ⟨true, ['3', '2', '1']⟩ = .ok rn ∧
      r.digits = rn.digits ∧ r.neg = ((false : Bool) != true) ∧
      hval r.digits = hval ['f', 'f'] * hval ['3', '2', '1'] ∧ BI.CacheOK c2 :=
  claim_C2 [] ⟨false, ['f', 'f']⟩ ⟨true, ['3', '2', '1']⟩ (by decide) (by decide)
    (by decide) (by decide) (by decide) (by decide) BI.cacheOK_nil

set_option maxRecDepth 40000 in
/-- Counterexample to C2 as stated: on -0x10000 times 0x10000 the
karatsuba routine returns a non-negative result while the naive routine
returns a negative one, so the two routines do not return the same value. -/
theorem claim_C2_counterexample :
    (BI.karatF 6 [] ⟨true, ['0', '0', '0', '0', '1']⟩ ⟨false, ['0', '0', '0', '0', '1']⟩).map
        (fun p => p.1.neg) = .ok false ∧
    (BI.multiplyNaive ⟨true, ['0', '0', '0', '0', '1']⟩ ⟨false, ['0', '0', '0', '0', '1']⟩).map
        (fun p => p.neg) = .ok true := ⟨rfl, rfl⟩

/-- Claim C3 (amended): the part_000 modPow guard ladder over the operand
values: a zero modulus fails (with the invalid-argument error the source
throws, not a division-by-zero one); a modulus of magnitude one returns
zero; then a zero exponent returns one; then a zero base returns zero
even when the exponent is negative (the base-zero guard precedes the
negative-exponent guard, unlike the spec's ladder); only then does a
negative exponent fail. -/
theorem claim_C3 (c : Cache) (a e md : HexInt)
    (hva : ValidHex a.digits = true) (hve : ValidHex e.digits = true)
    (hvm : ValidHex md.digits = true) :
    (hval md.digits = 0 → BI.modPow c a e md = .error .invalidArgument) ∧
    (hval md.digits = 1 → BI.modPow c a e md = .ok (BI.ofLit ['0'], c)) ∧
    (2 ≤ hval md.digits → hval e.digits = 0 →
      BI.modPow c a e md = .ok (BI.ofLit ['1'], c)) ∧
    (2 ≤ hval md.digits → 1 ≤ hval e.digits → hval a.digits = 0 →
      BI.modPow c a e md = .ok (BI.ofLit ['0'], c)) ∧
    (2 ≤ hval md.digits → 1 ≤ hval e.digits → 1 ≤ hval a.digits → e.neg = true →
      BI.modPow c a e md = .error .invalidArgument) := by
  refine ⟨?_, ?_, ?_, ?_, ?_⟩
  · intro h0
    unfold BI.modPow
    rw [if_pos (BI.isZero_of_hval_zero md hvm h0)]
  · intro h1
    unfold BI.modPow
    rw [if_neg (by rw [BI.isZero_false_of_hval_pos md (by omega)]; exact Bool.false_ne_true),
      if_pos (BI.isOne_of_hval_one md hvm h1)]
  · intro hm he
    unfold BI.modPow
    rw [if_neg (by rw [BI.isZero_false_of_hval_pos md (by omega)]; exact Bool.false_ne_true),
      if_neg (by rw [BI.isOne_false_of_hval_ne md (by omega)]; exact Bool.false_ne_true),
      if_pos (BI.isZero_of_hval_zero e hve he)]
  · intro hm he ha
    unfold BI.modPow
    rw [if_neg (by rw [BI.isZero_false_of_hval_pos md (by omega)]; exact Bool.false_ne_true),
      if_neg (by rw [BI.isOne_false_of_hval_ne md (by omega)]; exact Bool.false_ne_true),
      if_neg (by rw [BI.isZero_false_of_hval_pos e (by omega)]; exact Bool.false_ne_true),
      if_pos (BI.isZero_of_hval_zero a hva ha)]
  · intro hm he ha hneg
    unfold BI.modPow
    rw [if_neg (by rw [BI.isZero_false_of_hval_pos md (by omega)]; exact Bool.false_ne_true),
      if_neg (by rw [BI.isOne_false_of_hval_ne md (by omega)]; exact Bool.false_ne_true),
      if_neg (by rw [BI.isZero_false_of_hval_pos e (by omega)]; exact Bool.false_ne_true),
      if_neg (by rw [BI.isZero_false_of_hval_pos a (by omega)]; exact Bool.false_ne_true),
      if_pos hneg]

theorem claim_C3_witness :
    BI.modPow [] (BI.ofLit ['2']) (BI.ofLit ['3']) { neg := false, digits := ['0'] }
      = .error .invalidArgument :=
  (claim_C3 [] (BI.ofLit ['2']) (BI.ofLit ['3']) { neg := false, digits := ['0'] }
    (by decide) (by decide) (by decide)).1 (by decide)

/-- Counterexample to C3 as stated: modPow with zero base and negative
exponent -5 modulo 7 returns zero instead of failing, because the
base-zero guard fires before the negative-exponent guard. -/
theorem claim_C3_counterexample :
    BI.modPow [] { neg := false, digits := ['0'] } { neg := true, digits := ['5'] }
        { neg := false, digits := ['7'] } = .ok (BI.ofLit ['0'], []) ∧
    ({ neg := true, digits := ['5'] } : HexInt).neg = true := ⟨rfl, rfl⟩

/-- Claim C4 (amended): the BigIntv1.cpp hexadecimal parser and renderer
round-trip every successfully parsed literal to its canonical form (no
leading zeros, minus sign only on negative nonzero values, zero rendered
as "0"); the decimal BigInt of BigInt.cpp does not canonicalize, which
refutes the claim as stated. -/
theorem claim_C4 (s : List Char) (v : HexInt)
    (h : V1.createFromString s = .ok v) : V1.toStr v = canonicalSpec s := by
  unfold V1.createFromString at h
  unfold canonicalSpec
  dsimp only at h ⊢
  by_cases hvalid : V1.isValidInput s = true
  · rw [if_neg (by rw [hvalid]; simp)] at h
    cases hneg : (s.headD ' ' == '-') with
    | true =>
        rw [hneg] at h
        simp only [eq_self_iff_true, if_true] at h ⊢
        exact v1_roundtrip_core s.tail true v (V1.valid_tail_ne s hvalid hneg) h
    | false =>
        rw [hneg] at h
        simp only [Bool.false_eq_true, if_false] at h ⊢
        exact v1_roundtrip_core s false v (V1.valid_ne_nil s hvalid) h
  · have hvf : V1.isValidInput s = false := by
      cases hvv : V1.isValidInput s with
      | true => exact absurd hvv hvalid
      | false => rfl
    rw [hvf] at h
    simp at h

theorem claim_C4_witness :
    V1.toStr ⟨true, ['7']⟩ = canonicalSpec ['-', '0', '7'] :=
  claim_C4 ['-', '0', '7'] ⟨true, ['7']⟩ rfl

/-- Counterexample to C4 as stated: the decimal parser of BigInt.cpp keeps
the leading zeros of "007", and printing reproduces "007" rather than the
canonical "7". -/
theorem claim_C4_counterexample :
    ∃ v, BIDec.createFromString ['0', '0', '7'] = .ok v ∧
      BIDec.toText v ≠ canonicalSpec ['0', '0', '7'] := by
  refine ⟨_, rfl, ?_⟩
  decide

/-- Claim C5 (amended): the BigIntv1.cpp hexadecimal compare orders
well-formed values exactly as the integers they denote (differing signs
decide, equal signs compare length then digits from the top, inverted for
two negatives); the decimal compare of BigInt.cpp ignores the sign flags
entirely, which refutes the claim as stated for that variant. -/
theorem claim_C5 (a b : HexInt) (ha : WfHexS a = true) (hb : WfHexS b = true) :
    V1.compare a b = intCmpI (ivalHex a) (ivalHex b) :=
  v1_compare_correct a b ha hb

theorem claim_C5_witness :
    V1.compare ⟨true, ['5']⟩ ⟨false, ['3']⟩
      = intCmpI (ivalHex ⟨true, ['5']⟩) (ivalHex ⟨false, ['3']⟩) :=
  claim_C5 ⟨true, ['5']⟩ ⟨false, ['3']⟩ (by decide) (by decide)

/-- Counterexample to C5 as stated: the decimal compare reports -5 greater
than 3 because it never reads the sign flags. -/
theorem claim_C5_counterexample :
    BIDec.compare ⟨true, [5]⟩ ⟨false, [3]⟩ = 1 ∧
    ivalDec ⟨true, [5]⟩ < ivalDec ⟨false, [3]⟩ := by
  constructor
  · rfl
  · decide

/-- Claim C6: the BigIntv1.cpp Miller-Rabin guards, read over the integer
value of a well-formed operand: composite verdict for n at most one, prime
verdict for n equal to two or three, and composite verdict for every even
n above two; all four are decided before any witness is drawn, so the
iteration count and the witness stream are irrelevant and the memoization
map is returned unchanged. -/
theorem claim_C6 (c : Cache) (n : HexInt) (k : Nat) (ws : Nat → HexInt)
    (h : WfHexS n = true) :
    (ivalHex n ≤ 1 → V1.millerRabin c n k ws = .ok (false, c)) ∧
    (ivalHex n = 2 → V1.millerRabin c n k ws = .ok (true, c)) ∧
    (ivalHex n = 3 → V1.millerRabin c n k ws = .ok (true, c)) ∧
    (2 < ivalHex n → ivalHex n % 2 = 0 → V1.millerRabin c n k ws = .ok (false, c)) := by
  have h1 := v1_compare_correct n ⟨false, ['1']⟩ h (by decide)
  have h2 := v1_compare_correct n ⟨false, ['2']⟩ h (by decide)
  have h3 := v1_compare_correct n ⟨false, ['3']⟩ h (by decide)
  have e1 : ivalHex ⟨false, ['1']⟩ = 1 := by decide
  have e2 : ivalHex ⟨false, ['2']⟩ = 2 := by decide
  have e3 : ivalHex ⟨false, ['3']⟩ = 3 := by decide
  refine ⟨?_, ?_, ?_, ?_⟩
  · intro hle
    unfold V1.millerRabin
    rw [if_pos (by rw [h1, e1]; unfold intCmpI; split_ifs <;> omega)]
  · intro hv
    unfold V1.millerRabin
    rw [if_neg (by rw [h1, e1, hv]; decide),
      if_pos (by rw [h2, h3, e2, e3, hv]; decide)]
  · intro hv
    unfold V1.millerRabin
    rw [if_neg (by rw [h1, e1, hv]; decide),
      if_pos (by rw [h2, h3, e2, e3, hv]; decide)]
  · intro hgt hev
    unfold V1.millerRabin
    have hh : hval n.digits % 2 = 0 := by
      unfold ivalHex at hev
      split_ifs at hev <;> omega
    simp only [WfHexS, WfHex, Bool.and_eq_true] at h
    obtain ⟨⟨hv, hc⟩, _⟩ := h
    obtain ⟨c0, rest, hd⟩ : ∃ c0 rest, n.digits = c0 :: rest := by
      cases hdd : n.digits with
      | nil => exact absurd hdd (canon_ne_nil _ hc)
      | cons c0 rest => exact ⟨c0, rest, rfl⟩
    have heven : V1.isEven n = true := by
      unfold V1.isEven
      rw [hd]
      simp only [List.headD_cons, beq_iff_eq]
      rw [hd, hval_parity] at hh
      exact hh
    rw [if_neg (by rw [h1, e1]; unfold intCmpI; split_ifs <;> omega),
      if_neg (by
        rw [h2, h3, e2, e3]
        simp only [Bool.or_eq_true, beq_iff_eq]
        push_neg
        constructor <;> (unfold intCmpI; split_ifs <;> omega)),
      if_pos heven]

theorem claim_C6_witness :
    V1.millerRabin [] ⟨false, ['4']⟩ 3 (fun _ => ⟨false, ['2']⟩) = .ok (false, []) :=
  (claim_C6 [] ⟨false, ['4']⟩ 3 (fun _ => ⟨false, ['2']⟩) (by decide)).2.2.2
    (by decide) (by decide)

/-- Claim C7: refuted by a concrete negative zero: subtracting the decimal
value -5 from itself in BigInt.cpp yields a mathematically zero result
carrying a negative sign flag, so arithmetic does produce a negative
zero.  (Code bug: the decimal same-sign subtraction copies the first
operand's sign without normalizing a zero result.) -/
theorem claim_C7 :
    BIDec.sub ⟨true, [5]⟩ ⟨true, [5]⟩ = .ok ⟨true, [0]⟩ ∧
    ivalDec ⟨true, [0]⟩ = 0 := by
  constructor
  · rfl
  · decide

/-- Claim C8 (amended): the decimal addition of BigInt.cpp checks the
capacity before adding: on equal signs it fails with Overflow exactly when
the larger operand length reaches MAX_DIGITS - 1 = 617, even though sums
of such operands can still fit the 618-digit capacity; below that bound it
returns the exact sum with the first operand's sign, and on differing
signs it never fails. -/
theorem claim_C8 (a b : DecInt)
    (hva : ValidDec a.digits = true) (hvb : ValidDec b.digits = true) :
    (a.neg = b.neg → 617 ≤ max a.digits.length b.digits.length →
      BIDec.add a b = .error .overflow) ∧
    (a.neg = b.neg → max a.digits.length b.digits.length < 617 →
      ∃ r, BIDec.add a b = .ok r ∧ r.neg = a.neg ∧
        dval r.digits = dval a.digits + dval b.digits) ∧
    (a.neg ≠ b.neg → ∃ r, BIDec.add a b = .ok r) := by
  refine ⟨?_, ?_, ?_⟩
  · intro hs hlen
    unfold BIDec.add
    rw [if_pos (by rw [hs]; exact beq_self_eq_true _)]
    unfold BIDec.addCore
    rw [if_pos (by simp only [BIDec.MAX_DIGITS]; omega)]
  · intro hs hlen
    unfold BIDec.add
    rw [if_pos (by rw [hs]; exact beq_self_eq_true _)]
    unfold BIDec.addCore
    rw [if_neg (by simp only [BIDec.MAX_DIGITS]; omega)]
    obtain ⟨hl, hcar, hv⟩ := addSlotsD_spec
      (slotsD (max a.digits.length b.digits.length) a.digits)
      (slotsD (max a.digits.length b.digits.length) b.digits) 0 (by omega)
      (validDec_slotsD _ _ hva) (validDec_slotsD _ _ hvb)
    have hsa : dval (slotsD (max a.digits.length b.digits.length) a.digits)
        = dval a.digits := dval_slotsD _ _ (le_max_left _ _)
    have hsb : dval (slotsD (max a.digits.length b.digits.length) b.digits)
        = dval b.digits := dval_slotsD _ _ (le_max_right _ _)
    have hla : (slotsD (max a.digits.length b.digits.length) a.digits).length
        = max a.digits.length b.digits.length := slotsD_length _ _ (le_max_left _ _)
    have hlb : (slotsD (max a.digits.length b.digits.length) b.digits).length
        = max a.digits.length b.digits.length := slotsD_length _ _ (le_max_right _ _)
    rw [hla] at hv
    rw [List.take_of_length_le (le_of_eq hlb), hsa, hsb] at hv
    refine ⟨_, rfl, rfl, ?_⟩
    dsimp only
    split
    · next hcar2 =>
        rw [dval_append, hl, hla]
        simp only [dval, Nat.mul_zero, Nat.add_zero]
        omega
    · next hcar2 =>
        have : (addSlotsD (slotsD (max a.digits.length b.digits.length) a.digits)
            (slotsD (max a.digits.length b.digits.length) b.digits) 0).2 = 0 := by omega
        rw [this] at hv
        rw [hla] at hl
        omega
  · intro hs
    unfold BIDec.add
    rw [if_neg (by
      intro hcon
      exact hs (eq_of_beq hcon))]
    split
    · exact ⟨_, rfl⟩
    · exact ⟨_, rfl⟩

theorem claim_C8_witness :
    ∃ r, BIDec.add ⟨false, [1]⟩ ⟨false, [2]⟩ = .ok r ∧ r.neg = false ∧
      dval r.digits = dval [1] + dval [2] :=
  (claim_C8 ⟨false, [1]⟩ ⟨false, [2]⟩ (by decide) (by decide)).2.1 rfl (by decide)

set_option maxRecDepth 40000 in
/-- Counterexample to C8 as stated: adding zero to a 617-digit value fails
with Overflow although the mathematical sum fits the 618-digit capacity
comfortably. -/
theorem claim_C8_counterexample :
    BIDec.add ⟨false, List.replicate 616 0 ++ [1]⟩ ⟨false, [0]⟩ = .error .overflow ∧
    dval (List.replicate 616 0 ++ [1]) + dval [0] < 10 ^ BIDec.MAX_DIGITS := by
  constructor
  · rfl
  · rw [dval_append, dval_replicate_zero]
    simp only [dval, List.length_replicate, BIDec.MAX_DIGITS]
    have : (10 : Nat) ^ 616 * (1 + 10 * 0) < 10 ^ 618 :=
      by
        have h1 : (10 : Nat) ^ 616 < 10 ^ 618 := Nat.pow_lt_pow_right (by norm_num) (by omega)
        omega
    omega

set_option maxRecDepth 400000 in
/-- Claim C9: refuted by a repeated multiplication whose product has 65
hex digits: the first call succeeds (and memoizes the 65-digit textual
product), while the second call with the same operands hits the cache and
fails with Overflow, because the cached text is reconstructed through
createFromString whose input cap is HEX_SIZE = 64 digits.  So the result
of multiply is not independent of the cache contents. -/
theorem claim_C9 :
    (BI.mulOp [] ⟨false, ['f', 'f', 'f', 'f']⟩ ⟨false, List.replicate 61 'f'⟩).map
        (fun p => (BI.toStr p.1).length) = .ok 65 ∧
    ((BI.mulOp [] ⟨false, ['f', 'f', 'f', 'f']⟩ ⟨false, List.replicate 61 'f'⟩).bind
        (fun p => BI.mulOp p.2 ⟨false, ['f', 'f', 'f', 'f']⟩ ⟨false, List.replicate 61 'f'⟩))
      = .error .overflow := ⟨rfl, rfl⟩

/-- Claim C10: the BigIntv1.cpp same-sign subtraction is total: it always
returns a value (never Overflow or any other error), and the significant
length of the result never exceeds the larger operand's significant
length. -/
theorem claim_C10 (a b : HexInt) (hsign : a.neg = b.neg)
    (h1 : 1 ≤ a.digits.length) (h2 : 1 ≤ b.digits.length) :
    ∃ r, V1.sub a b = .ok r ∧
      r.digits.length ≤ max a.digits.length b.digits.length := by
  unfold V1.sub
  rw [if_neg (by rw [hsign, bne_self_eq_false]; exact Bool.false_ne_true)]
  refine ⟨_, rfl, ?_⟩
  unfold V1.subCore
  dsimp only
  have hane : a.digits ≠ [] := by
    intro he
    rw [he] at h1
    simp at h1
  have hbne : b.digits ≠ [] := by
    intro he
    rw [he] at h2
    simp at h2
  have hsa : (subSlots a.digits b.digits 0).length = a.digits.length :=
    subSlots_length a.digits b.digits 0
  have hsb : (subSlots b.digits a.digits 0).length = b.digits.length :=
    subSlots_length b.digits a.digits 0
  split <;> split <;>
    first
      | exact le_trans (le_trans (trimHigh_length_le _ (by
          intro he
          rw [he] at hsa
          exact hane (List.length_eq_zero.mp hsa.symm))) (le_of_eq hsa))
          (le_max_left _ _)
      | exact le_trans (le_trans (trimHigh_length_le _ (by
          intro he
          rw [he] at hsb
          exact hbne (List.length_eq_zero.mp hsb.symm))) (le_of_eq hsb))
          (le_max_right _ _)

theorem claim_C10_witness :
    ∃ r, V1.sub ⟨false, ['5']⟩ ⟨false, ['3']⟩ = .ok r ∧
      r.digits.length ≤ max (['5'] : List Char).length (['3'] : List Char).length :=
  claim_C10 ⟨false, ['5']⟩ ⟨false, ['3']⟩ rfl (by decide) (by decide)
